import Mathlib

/-!
# acme-zk: tree outline, click resolution and edit sessions

A shallow embedding of `main.go` of acme-zk: the expand-state store, the
recursive outline printer of `updateDisplay`, the click resolver
`getIdForEvent`, and the per-note edit session loop of `openNote`.

Go strings and byte slices are lists of byte values (`Bytes`); Go `int`
identities are integers. The collaborators that are not part of the
repository (the acme window, the zk backend, the Go standard library) are
modelled by what the program observes of them.
-/

namespace AcmeZk

/-! ## Data model -/

/-- A Go string or byte slice: the sequence of its byte values. -/
abbrev Bytes := List Nat

/-- The error values the program can observe. -/
inductive Err
  | notFound
  | backend
  | host
  | eof
  | cannotFindId
  | atoiRange
  deriving DecidableEq, Repr

deriving instance DecidableEq for Except

/-- The backend's note record (`libzk.Note`), as far as `main.go` reads it. -/
structure Note where
  Title : Bytes
  Body : Bytes
  Subnotes : List Int
  Files : List Bytes
  deriving DecidableEq, Repr

/-- Modelled from the spec: the backend lookup `zk.GetNote(id)`, which
yields a note or fails; the backend library is not part of the repository. -/
abbrev ZK := Int → Except Err Note

/-- The global `expandState` map of `main.go` (line 17): a Go `map[int]bool`,
an absent key reading as `none`. -/
abbrev ExpandState := Int → Option Bool

/-- The initial value `map[int]bool{}` of `expandState`. -/
def emptyExpandState : ExpandState := fun _ => none

/-- Assignment `m[k] = v` on the Go map. -/
def mapSet (m : ExpandState) (k : Int) (v : Bool) : ExpandState :=
  fun j => if j = k then some v else m j

/-- Source lines 120-123: `expanded, _ := expandState[id]; return expanded`.
A missing key yields the zero value `false`. -/
def isExpanded (es : ExpandState) (id : Int) : Bool :=
  match es id with
  | some expanded => expanded
  | none => false

/-- Source line 65: `expandState[id] = !isExpanded(id)`. -/
def toggleExpand (es : ExpandState) (id : Int) : ExpandState :=
  mapSet es id (!isExpanded es id)

/-! ## The acme window, as the program drives it -/

/-- Control messages the program writes to a window's `ctl` file. -/
inductive Ctl
  | noscroll
  | addrDot
  | dotAddr
  | show
  | dotAddrShow
  | clean
  | dirty
  deriving DecidableEq, Repr

/-- Messages the program shows through `w.Err` and `w.Errf`. -/
inductive Msg
  | cantOpenNote (id : Int) (e : Err)
  | cantReadBody (e : Err)
  | noteChanged (id : Int)
  | plain (e : Err)
  deriving DecidableEq, Repr

/-- An acme event, with the fields the program reads. -/
structure Event where
  C2 : Nat
  Q0 : Int
  Text : Bytes
  deriving DecidableEq, Repr

/-- Modelled from the spec: the host window. `body` is the body text,
`marked` the visible dirty marker as set by the `dirty` and `clean` control
messages, `ctls` every control message written (oldest first), `errs` the
messages shown to the user, `passed` the events handed back to acme. -/
structure Win where
  tag : Bytes
  body : Bytes
  marked : Bool
  ctls : List Ctl
  errs : List Msg
  passed : List Event
  deriving DecidableEq, Repr

/-- A freshly created window (`acme.New()`). -/
def Win.new : Win :=
  { tag := [], body := [], marked := false, ctls := [], errs := [], passed := [] }

/-- The call `w.Clear()`: the body becomes empty. -/
def Win.Clear (w : Win) : Win := { w with body := [] }

/-- The call `w.Fprintf("body", ...)`: a write to the body file appends. -/
def Win.FprintfBody (w : Win) (text : Bytes) : Win := { w with body := w.body ++ text }

/-- The call `w.Fprintf("tag", ...)`. -/
def Win.FprintfTag (w : Win) (text : Bytes) : Win := { w with tag := w.tag ++ text }

/-- The call `w.Ctl(c)`: the message is written; `clean` and `dirty` set the marker. -/
def Win.Ctl (w : Win) (c : Ctl) : Win :=
  { w with
    ctls := w.ctls ++ [c]
    marked := match c with
      | Ctl.clean => false
      | Ctl.dirty => true
      | _ => w.marked }

/-- The calls `w.Err(...)` and `w.Errf(...)`: a message is shown to the user. -/
def Win.Err (w : Win) (m : Msg) : Win := { w with errs := w.errs ++ [m] }

/-- The call `w.WriteEvent(e)`: the event is handed back to acme. -/
def Win.WriteEvent (w : Win) (e : Event) : Win := { w with passed := w.passed ++ [e] }

/-! ## Formatting (`fmt`) -/

/-- The decimal digits of `n`, most significant first, pushed in front of
`acc`: the digit loop of Go's integer formatting. -/
def fmtNatAux : Nat → Nat → Bytes → Bytes
  | 0, _, acc => acc
  | fuel + 1, n, acc =>
    if n < 10 then (48 + n) :: acc
    else fmtNatAux fuel (n / 10) ((48 + n % 10) :: acc)

/-- The verb `%d` on a non-negative value. -/
def fmtNat (n : Nat) : Bytes := fmtNatAux (n + 1) n []

/-- The verb `%d` on a Go `int`: a minus sign for negative values. -/
def fmtInt (i : Int) : Bytes :=
  if i < 0 then 45 :: fmtNat i.natAbs else fmtNat i.toNat

/-! ## The outline printer (`updateDisplay`) -/

/-- Source lines 139-142: `depth` tab characters. -/
def indent (depth : Nat) : Bytes := List.replicate depth 9

/-- Source lines 143-150: the decoration is a space, or for a note with
subnotes or files a minus sign when expanded and a plus sign otherwise. -/
def decoration (es : ExpandState) (id : Int) (note : Note) : Nat :=
  if note.Subnotes.length > 0 ∨ note.Files.length > 0 then
    if isExpanded es id then 45 else 43
  else 32

/-- Source lines 151-156: the file-count suffix, empty for no file,
` (1 file)` for one and ` (N files)` for more. -/
def fileCount (note : Note) : Bytes :=
  if note.Files.length > 1 then
    [32, 40] ++ fmtNat note.Files.length ++ [32, 102, 105, 108, 101, 115, 41]
  else if note.Files.length = 1 then
    [32, 40, 49, 32, 102, 105, 108, 101, 41]
  else []

/-- Source line 157: the text written for one note,
`"%s%s [%d] %s%s\n"` of indent, decoration, id, title and file count. -/
def renderLine (es : ExpandState) (id : Int) (depth : Nat) (note : Note) : Bytes :=
  indent depth ++ [decoration es id note] ++ [32, 91] ++ fmtInt id ++ [93, 32]
    ++ note.Title ++ fileCount note ++ [10]

/-- Source lines 159-163: the loop over the subnotes, which stops at the
first failing call. The result is the text written and the error, if any;
`none` when a call did not finish. -/
def forSubnotes (call : Int → Option (Bytes × Option Err)) :
    List Int → Option (Bytes × Option Err)
  | [] => some ([], none)
  | sub :: rest =>
    match call sub with
    | none => none
    | some (out, some e) => some (out, some e)
    | some (out, none) =>
      match forSubnotes call rest with
      | none => none
      | some (out2, err) => some (out ++ out2, err)

/-- Source lines 134-166: the recursive closure `printer`. The result is
the text the call appended to the body and the error it returned; `none`
when the recursion is deeper than `fuel`. -/
def printer (zk : ZK) (es : ExpandState) : Nat → Int → Nat → Option (Bytes × Option Err)
  | 0, _, _ => none
  | fuel + 1, id, depth =>
    match zk id with
    | Except.error e => some ([], some e)
    | Except.ok note =>
      if isExpanded es id then
        match forSubnotes (fun sub => printer zk es fuel sub (depth + 1)) note.Subnotes with
        | none => none
        | some (out, err) => some (renderLine es id depth note ++ out, err)
      else some (renderLine es id depth note, none)

/-- Source lines 125-172: `updateDisplay`. The window is cleared, the
outline is printed from note 0 at depth 0, and the printer's error is
dropped (line 169). -/
def updateDisplay (zk : ZK) (es : ExpandState) (fuel : Nat) (w : Win) : Option Win :=
  let w := w.Clear
  let w := w.Ctl Ctl.noscroll
  let w := w.Ctl Ctl.addrDot
  match printer zk es fuel 0 0 with
  | none => none
  | some (out, _) => some ((w.FprintfBody out).Ctl Ctl.dotAddrShow)

/-! ## The click resolver (`getIdForEvent`) -/

/-- The replacement rune `utf8.RuneError`. -/
def RuneError : Nat := 0xFFFD

/-- Go's `utf8.DecodeRune`: the first rune of `p` and its width in bytes; an
invalid or truncated encoding is `RuneError` of width 1. -/
def DecodeRune (p : Bytes) : Nat × Nat :=
  match p with
  | [] => (RuneError, 0)
  | p0 :: t =>
    if p0 < 0x80 then (p0, 1)
    else if p0 < 0xC2 then (RuneError, 1)
    else if p0 < 0xE0 then
      match t with
      | b1 :: _ =>
        if 0x80 ≤ b1 ∧ b1 ≤ 0xBF then ((p0 % 32) * 64 + b1 % 64, 2) else (RuneError, 1)
      | [] => (RuneError, 1)
    else if p0 < 0xF0 then
      match t with
      | b1 :: b2 :: _ =>
        if (if p0 = 0xE0 then 0xA0 else 0x80) ≤ b1 ∧ b1 ≤ (if p0 = 0xED then 0x9F else 0xBF) then
          if 0x80 ≤ b2 ∧ b2 ≤ 0xBF then
            ((p0 % 16) * 4096 + (b1 % 64) * 64 + b2 % 64, 3)
          else (RuneError, 1)
        else (RuneError, 1)
      | _ => (RuneError, 1)
    else if p0 < 0xF5 then
      match t with
      | b1 :: b2 :: b3 :: _ =>
        if (if p0 = 0xF0 then 0x90 else 0x80) ≤ b1 ∧ b1 ≤ (if p0 = 0xF4 then 0x8F else 0xBF) then
          if 0x80 ≤ b2 ∧ b2 ≤ 0xBF then
            if 0x80 ≤ b3 ∧ b3 ≤ 0xBF then
              ((p0 % 8) * 262144 + (b1 % 64) * 4096 + (b2 % 64) * 64 + b3 % 64, 4)
            else (RuneError, 1)
          else (RuneError, 1)
        else (RuneError, 1)
      | _ => (RuneError, 1)
    else (RuneError, 1)

/-- Go's `bytes.Buffer.ReadRune`: the next rune, its width and the rest of
the buffer, or `io.EOF` on an empty buffer. -/
def ReadRune (buf : Bytes) : Except Err (Nat × Nat × Bytes) :=
  match buf with
  | [] => Except.error Err.eof
  | _ :: _ =>
    let (r, sz) := DecodeRune buf
    Except.ok (r, sz, buf.drop sz)

/-- Source lines 91-103: the loop `for i := 0; i != e.Q0; ...` from the
state `(buf, i, line)`. The result is the line number reached or the error
of `ReadRune`; `none` when the loop runs longer than `fuel` rounds. -/
def scanLoop (q0 : Int) : Nat → Bytes → Int → Nat → Option (Except Err Nat)
  | 0, _, _, _ => none
  | fuel + 1, buf, i, line =>
    if i = q0 then some (Except.ok line)
    else
      match ReadRune buf with
      | Except.error e => some (Except.error e)
      | Except.ok (r, sz, rest) =>
        scanLoop q0 fuel rest (i + sz) (if r = 10 then line + 1 else line)

/-- The text up to and including the first newline. -/
def takeLine : Bytes → Bytes
  | [] => []
  | c :: t => if c = 10 then [c] else c :: takeLine t

/-- The text after the first newline, if there is one. -/
def dropLine : Bytes → Option Bytes
  | [] => none
  | c :: t => if c = 10 then some t else dropLine t

/-- Modelled from the spec: the addressed read of line `n` of the window
body (`w.Addr("%d", line)` followed by `w.ReadAll("xdata")`): the text of
that line with its newline, or a failure when the body has no such line. -/
def addrLine : Bytes → Nat → Except Err Bytes
  | _, 0 => Except.ok []
  | body, 1 => Except.ok (takeLine body)
  | body, n + 2 =>
    match dropLine body with
    | none => Except.error Err.host
    | some rest => addrLine rest (n + 1)

/-- The character class `\d` of Go's regexp: an ASCII digit. -/
def isDigit (c : Nat) : Bool := 48 ≤ c && c ≤ 57

/-- A match of `(\d+)\]` at the head of `s`: the digits captured. -/
def matchDigitsClose (s : Bytes) : Option Bytes :=
  let ds := s.takeWhile isDigit
  if ds ≠ [] ∧ (s.dropWhile isDigit).head? = some 93 then some ds else none

/-- Source lines 110-112: `re.FindStringSubmatch` for the pattern
`\[(\d+)\]`: the first group of the leftmost match. -/
def findSubmatch : Bytes → Option Bytes
  | [] => none
  | c :: t =>
    if c = 91 then
      match matchDigitsClose t with
      | some ds => some ds
      | none => findSubmatch t
    else findSubmatch t

/-- Go's `strconv.Atoi` on a string of decimal digits: the value, or a range
error when it does not fit a 64-bit `int`. -/
def Atoi (ds : Bytes) : Except Err Int :=
  let n := ds.foldl (fun acc c => acc * 10 + (c - 48)) 0
  if n < 2 ^ 63 then Except.ok (Int.ofNat n) else Except.error Err.atoiRange

/-- Source lines 83-118: `getIdForEvent` on the body text of the tree
window and the event offset `Q0`, for a window whose reads succeed:
`w.ReadAll("body")` yields `body`, and the addressed read yields what
`addrLine` says. `none` stands for a scan loop that does not finish within
one round per byte of the body plus one. -/
def getIdForEvent (body : Bytes) (q0 : Int) : Option (Except Err Int) :=
  match scanLoop q0 (body.length + 1) body 0 1 with
  | none => none
  | some (Except.error e) => some (Except.error e)
  | some (Except.ok line) =>
    match addrLine body line with
    | Except.error e => some (Except.error e)
    | Except.ok b =>
      match findSubmatch b with
      | none => some (Except.error Err.cannotFindId)
      | some ds => some (Atoi ds)

/-! ## The edit session (`openNote`) -/

/-- A call to the backend. -/
inductive Call
  | GetNote (id : Int)
  | UpdateNote (id : Int) (body : Bytes)
  deriving DecidableEq, Repr

/-- What the collaborators answer while one event is handled: the failure
of `w.ReadAll("body")` if any, the result of `zk.GetNote(id)`, and the
failure of `zk.UpdateNote(id, body)` if any. -/
structure Env where
  readAll : Option Err
  getNote : Except Err Note
  updateNote : Option Err

/-- The local state of one `openNote` call: the note id, the flags `dirty`
and `dirtyWarned` (line 177), the variable `err` (line 179), the session's
window, and the backend calls made so far (oldest first). -/
structure Session where
  id : Int
  dirty : Bool
  dirtyWarned : Bool
  err : Option Err
  w : Win
  calls : List Call
  deriving DecidableEq, Repr

/-- The tag text `Undo Redo Put`. -/
def tagText : Bytes := [85, 110, 100, 111, 32, 82, 101, 100, 111, 32, 80, 117, 116]

/-- The command text `Put`. -/
def textPut : Bytes := [80, 117, 116]

/-- The command text `Get`. -/
def textGet : Bytes := [71, 101, 116]

/-- Source lines 189-203: the closure `getBody`. The address write
`w.Addr("0")` of line 199 touches no field of the window model. -/
def getBody (env : Env) (s : Session) : Session :=
  let s := { s with calls := s.calls ++ [Call.GetNote s.id] }
  match env.getNote with
  | Except.error e => { s with w := s.w.Err (Msg.cantOpenNote s.id e) }
  | Except.ok note =>
    let s := { s with dirty := false }
    let w := s.w.Clear
    let w := w.FprintfBody note.Body
    let w := w.Ctl Ctl.dotAddr
    let w := w.Ctl Ctl.show
    let w := w.Ctl Ctl.clean
    { s with w := w }

/-- Source lines 174-205: `openNote` up to its event loop, once the window
exists: both flags start false, the tag is written and the body loaded. -/
def openNote (env : Env) (id : Int) : Session :=
  let s : Session :=
    { id := id, dirty := false, dirtyWarned := false, err := none,
      w := Win.new.FprintfTag tagText, calls := [] }
  getBody env s

/-- Source lines 248-250: the check that closes a round of the event loop. -/
def loopEnd (s : Session) : Session :=
  match s.err with
  | some e => { s with w := s.w.Err (Msg.plain e) }
  | none => s

/-- Source lines 207-251: one round of the event loop of `openNote`. A
`continue` leaves the round without the closing check. -/
def sessionEvent (env : Env) (s : Session) (e : Event) : Session :=
  if e.C2 = 120 then
    if e.Text = textPut then
      match env.readAll with
      | some rerr => { s with w := s.w.Err (Msg.cantReadBody rerr) }
      | none =>
        let body := s.w.body
        let s := { s with calls := s.calls ++ [Call.UpdateNote s.id body] }
        let s := { s with dirty := false }
        let s := { s with w := s.w.Ctl Ctl.clean }
        loopEnd s
    else if e.Text = textGet then
      if s.dirty && !s.dirtyWarned then
        { s with w := s.w.Err (Msg.noteChanged s.id), dirtyWarned := true }
      else
        let s := { s with dirtyWarned := false }
        loopEnd (getBody env s)
    else loopEnd { s with w := s.w.WriteEvent e }
  else if e.C2 = 68 ∨ e.C2 = 73 then
    if !s.dirty then loopEnd { s with w := s.w.Ctl Ctl.dirty, dirty := true }
    else loopEnd s
  else loopEnd s

/-- The user changes the text of the session window; acme then reports the
change as an insert or delete event. -/
def userEdit (s : Session) (text : Bytes) : Session :=
  { s with w := { s.w with body := text } }

/-- A tag execution of `Put` (`C2 = 'x'`). -/
def evPut (q0 : Int) : Event := ⟨120, q0, textPut⟩

/-- A tag execution of `Get` (`C2 = 'x'`). -/
def evGet (q0 : Int) : Event := ⟨120, q0, textGet⟩

/-- An insertion into the body (`C2 = 'I'`). -/
def evInsert (q0 : Int) (text : Bytes) : Event := ⟨73, q0, text⟩

/-- A deletion from the body (`C2 = 'D'`). -/
def evDelete (q0 : Int) : Event := ⟨68, q0, []⟩

/-- One user edit as the session meets it: the body text the edit leaves
in the window, the insert or delete event reporting it, and the
collaborators' answers during that round. -/
structure Edit where
  text : Bytes
  event : Event
  env : Env

/-- The session after a run of user edits, each handled by one round. -/
def runEdits (s : Session) (edits : List Edit) : Session :=
  edits.foldl (fun st x => sessionEvent x.env (userEdit st x.text) x.event) s

/-- Answers of collaborators that all succeed, the backend holding `note`. -/
def envOk (note : Note) : Env :=
  { readAll := none, getNote := Except.ok note, updateNote := none }

/-- A note with the given body and nothing else. -/
def noteWithBody (body : Bytes) : Note :=
  { Title := [], Body := body, Subnotes := [], Files := [] }

/-- The run edit, Get, Put on note `id`: the note opens with body `b0`, the
user edits it to `b1`, asks for Get (and is warned) and saves with Put. -/
def editGetPut (id : Int) (b0 b1 : Bytes) : Session :=
  let s0 := openNote (envOk (noteWithBody b0)) id
  let s1 := sessionEvent (envOk (noteWithBody b0)) (userEdit s0 b1) (evInsert 0 [])
  let s2 := sessionEvent (envOk (noteWithBody b0)) s1 (evGet 0)
  sessionEvent (envOk (noteWithBody b0)) s2 (evPut 0)

/-- The run edit, Get, Put, edit: after the save the user edits the text
to `b2`, while the backend holds the saved body `b1`. -/
def editGetPutEdit (id : Int) (b0 b1 b2 : Bytes) : Session :=
  sessionEvent (envOk (noteWithBody b1)) (userEdit (editGetPut id b0 b1) b2) (evInsert 0 [])

/-- The run edit, Get, Put, edit, Get: the user asks for Get once more. -/
def editGetPutEditGet (id : Int) (b0 b1 b2 : Bytes) : Session :=
  sessionEvent (envOk (noteWithBody b1)) (editGetPutEdit id b0 b1 b2) (evGet 0)

/-! ## The reference outline of the specification -/

/-- Decimal text of a natural number, from its base-10 digits. -/
def refDecimal (n : Nat) : Bytes :=
  if n = 0 then [48] else (Nat.digits 10 n).reverse.map (fun d => 48 + d)

/-- Decimal text of an integer. -/
def refDecimalInt (i : Int) : Bytes :=
  if i < 0 then 45 :: refDecimal i.natAbs else refDecimal i.toNat

/-- The suffix reporting the attached files: nothing for 0 files,
` (1 file)` for exactly 1 and ` (N files)` for `N >= 2`. -/
def refSuffix (files : Nat) : Bytes :=
  match files with
  | 0 => []
  | 1 => [32, 40, 49, 32, 102, 105, 108, 101, 41]
  | n + 2 => [32, 40] ++ refDecimal (n + 2) ++ [32, 102, 105, 108, 101, 115, 41]

/-- The decoration glyph: a plus or minus sign exactly for a note with a
child or a file, minus when expanded; a space for a leaf. -/
def refDecoration (expanded : Bool) (children files : Nat) : Nat :=
  match children, files with
  | 0, 0 => 32
  | _, _ => if expanded then 45 else 43

/-- One outline line: depth tabs, the decoration, a space, the bracketed
id in decimal, a space, the title, the file-count suffix and a newline. -/
def refLine (notes : Int → Note) (es : ExpandState) (v : Int × Nat) : Bytes :=
  List.replicate v.2 9
    ++ [refDecoration (isExpanded es v.1) (notes v.1).Subnotes.length (notes v.1).Files.length]
    ++ [32] ++ [91] ++ refDecimalInt v.1 ++ [93] ++ [32] ++ (notes v.1).Title
    ++ refSuffix (notes v.1).Files.length ++ [10]

/-- The visits of a list of children, in order; `none` when one of them
does not finish. -/
def visitAll (visit : Int → Option (List (Int × Nat))) : List Int → Option (List (Int × Nat))
  | [] => some []
  | sub :: rest =>
    match visit sub, visitAll visit rest with
    | some vs, some ws => some (vs ++ ws)
    | _, _ => none

/-- The offsets of `buf` at which successive calls of `ReadRune` start,
counted from `off`, the end of the text included. -/
def runeOffsets : Nat → Bytes → Nat → List Nat
  | 0, _, off => [off]
  | fuel + 1, buf, off =>
    match buf with
    | [] => [off]
    | _ :: _ =>
      off :: runeOffsets fuel (buf.drop (DecodeRune buf).2) (off + (DecodeRune buf).2)

/-- The text of a note's line before its newline. -/
def lineText (es : ExpandState) (id : Int) (depth : Nat) (note : Note) : Bytes :=
  indent depth ++ [decoration es id note] ++ [32, 91] ++ fmtInt id ++ [93, 32]
    ++ note.Title ++ fileCount note

/-! ## Sample data -/

/-- A small backend: note 0 `zk` with children 1 and 2, note 1 `a` with two
files, note 2 with a two-byte title and one file and child 3; every other
note is empty. -/
def sampleNotes : Int → Note := fun id =>
  if id = 0 then { Title := [122, 107], Body := [], Subnotes := [1, 2], Files := [] }
  else if id = 1 then { Title := [97], Body := [], Subnotes := [], Files := [[102], [103]] }
  else if id = 2 then { Title := [195, 169], Body := [], Subnotes := [3], Files := [[102]] }
  else { Title := [], Body := [], Subnotes := [], Files := [] }

/-- The sample backend as a lookup that always succeeds. -/
def sampleZK : ZK := fun id => Except.ok (sampleNotes id)

/-- The store after one toggle of note 0. -/
def sampleExpand : ExpandState := toggleExpand emptyExpandState 0

/-- A backend whose root has the single child `-1`. -/
def negativeNotes : Int → Note := fun id =>
  if id = 0 then { Title := [], Body := [], Subnotes := [-1], Files := [] }
  else { Title := [116], Body := [], Subnotes := [], Files := [] }

/-- A backend whose notes have the two-line title `a`, newline, `b`. -/
def twoLineNotes : Int → Note := fun _ =>
  { Title := [97, 10, 98], Body := [], Subnotes := [], Files := [] }

/-- The window after the sample render: three lines, 47 bytes. -/
def sampleWin : Win :=
  { tag := []
    body := [45, 32, 91, 48, 93, 32, 122, 107, 10, 9, 43, 32, 91, 49, 93, 32, 97, 32, 40, 50,
      32, 102, 105, 108, 101, 115, 41, 10, 9, 43, 32, 91, 50, 93, 32, 195, 169, 32, 40, 49, 32,
      102, 105, 108, 101, 41, 10]
    marked := false
    ctls := [Ctl.noscroll, Ctl.addrDot, Ctl.dotAddrShow]
    errs := []
    passed := [] }

/-! ## The browser loop (`main`) -/

/-- The command text `Update`. -/
def textUpdate : Bytes := [85, 112, 100, 97, 116, 101]

/-- The state the event loop of `main` works on: the expand-state store, the
tree window, the notes for which `go openNote(id)` was started (oldest
first), the variable `err` of `main` (line 25), and what `fmt.Println`
printed. -/
structure Browser where
  es : ExpandState
  w : Win
  opened : List Int
  err : Option Err
  printed : List Err

/-- Source lines 76-78: the check that closes a round of the loop of `main`. -/
def mainLoopEnd (b : Browser) : Browser :=
  match b.err with
  | some e => { b with printed := b.printed ++ [e] }
  | none => b

/-- Source lines 43-79: one round of the event loop of `main`. A `continue`
leaves the round without the closing check; `none` when a render or a scan
does not finish within its bound. -/
def mainEvent (zk : ZK) (fuel : Nat) (b : Browser) (e : Event) : Option Browser :=
  if e.C2 = 120 then
    if e.Text = textUpdate then
      match updateDisplay zk b.es fuel b.w with
      | none => none
      | some w2 => some (mainLoopEnd { b with w := w2 })
    else some (mainLoopEnd { b with w := b.w.WriteEvent e })
  else if e.C2 = 88 then
    match getIdForEvent b.w.body e.Q0 with
    | none => none
    | some (Except.error _) => some b
    | some (Except.ok id) =>
      match updateDisplay zk (toggleExpand b.es id) fuel b.w with
      | none => none
      | some w2 => some (mainLoopEnd { b with es := toggleExpand b.es id, w := w2 })
  else if e.C2 = 108 ∨ e.C2 = 76 then
    match getIdForEvent b.w.body e.Q0 with
    | none => none
    | some (Except.error _) => some b
    | some (Except.ok id) => some (mainLoopEnd { b with opened := b.opened ++ [id] })
  else some (mainLoopEnd b)

/-- A text holds a bracketed identity: an opening bracket, one or more
decimal digits, a closing bracket. -/
def HasAnchor (line : Bytes) : Prop :=
  ∃ pre ds post, ds ≠ [] ∧ (∀ d ∈ ds, isDigit d = true) ∧ line = pre ++ 91 :: (ds ++ 93 :: post)

/-! ## The pre-order walk over a backend whose lookups may fail -/

/-- The note a lookup yields, or an empty note when it fails. -/
def noteOf (zk : ZK) (id : Int) : Note :=
  match zk id with
  | Except.ok note => note
  | Except.error _ => { Title := [], Body := [], Subnotes := [], Files := [] }

/-- The notes of the pre-order walk from `id` at `depth`: a note, then, if
its lookup succeeds and it is expanded, its children in the backend's order
one level deeper. A note whose lookup fails is part of the walk and has no
children. `none` when the walk is deeper than `fuel`. -/
def preorderZK (zk : ZK) (es : ExpandState) : Nat → Int → Nat → Option (List (Int × Nat))
  | 0, _, _ => none
  | fuel + 1, id, depth =>
    match zk id with
    | Except.error _ => some [(id, depth)]
    | Except.ok note =>
      if isExpanded es id then
        match visitAll (fun sub => preorderZK zk es fuel sub (depth + 1)) note.Subnotes with
        | some vs => some ((id, depth) :: vs)
        | none => none
      else some [(id, depth)]

/-- The error of the first note of a walk whose lookup fails, if any. -/
def firstError (zk : ZK) : List (Int × Nat) → Option Err
  | [] => none
  | v :: rest =>
    match zk v.1 with
    | Except.error e => some e
    | Except.ok _ => firstError zk rest

/-- The notes of a walk before the first one whose lookup fails. -/
def okPrefix (zk : ZK) : List (Int × Nat) → List (Int × Nat)
  | [] => []
  | v :: rest =>
    match zk v.1 with
    | Except.error _ => []
    | Except.ok _ => v :: okPrefix zk rest

/-- The lines written for a run of visits. -/
def linesOf (zk : ZK) (es : ExpandState) (vs : List (Int × Nat)) : Bytes :=
  (vs.map (fun v => renderLine es v.1 v.2 (noteOf zk v.1))).flatten

/-- A backend in which note 0 has the children 1 and 2, the lookup of note 1
fails, and note 2 is a leaf. -/
def brokenZK : ZK := fun id =>
  if id = 0 then Except.ok { Title := [122, 107], Body := [], Subnotes := [1, 2], Files := [] }
  else if id = 1 then Except.error Err.notFound
  else Except.ok { Title := [98], Body := [], Subnotes := [], Files := [] }

/-! ## Links and paths of the outline -/

/-- A Subnotes link out of an expanded note: `a` is found and expanded and
lists `b` among its subnotes. -/
def Edge (zk : ZK) (es : ExpandState) (a b : Int) : Prop :=
  isExpanded es a = true ∧ ∃ note, zk a = Except.ok note ∧ b ∈ note.Subnotes

/-- The note at the end of a path from `id`: a path is the list of the
positions, in the Subnotes lists, of the links taken, each link leaving a
note that is found and expanded. `none` when the list is no such path. -/
def followPath (zk : ZK) (es : ExpandState) : Int → List Nat → Option Int
  | id, [] => some id
  | id, i :: p =>
    if isExpanded es id then
      match zk id with
      | Except.ok note =>
        match note.Subnotes[i]? with
        | some sub => followPath zk es sub p
        | none => none
      | Except.error _ => none
    else none

/-- The paths through a list of numbered children, given the paths from
each child. -/
def childPaths (paths : Int → Option (List (List Nat))) :
    List (Nat × Int) → Option (List (List Nat))
  | [] => some []
  | c :: rest =>
    match paths c.2, childPaths paths rest with
    | some ps, some qs => some (ps.map (fun p => c.1 :: p) ++ qs)
    | _, _ => none

/-- The paths from `id`, in the order of the walk: the empty path, then the
paths through each child of a found and expanded note. `none` when a path
is longer than `fuel`. -/
def pathsFrom (zk : ZK) (es : ExpandState) : Nat → Int → Option (List (List Nat))
  | 0, _ => none
  | fuel + 1, id =>
    match zk id with
    | Except.error _ => some [[]]
    | Except.ok note =>
      if isExpanded es id then
        match childPaths (pathsFrom zk es fuel) note.Subnotes.enum with
        | some ps => some ([] :: ps)
        | none => none
      else some [[]]

/-! ## Lines of the window body -/

/-- The offset of the first newline of a text, or its length when it holds
no newline. -/
def newlineIndex (l : Bytes) : Nat := (l.takeWhile (fun c => c != 10)).length

/-- A finite store: notes 0, 1 and 2 of the sample backend, every other
lookup failing. -/
def smallZK : ZK := fun id =>
  if id = 0 ∨ id = 1 ∨ id = 2 then Except.ok (sampleNotes id) else Except.error Err.notFound

end AcmeZk

namespace AcmeZk

/-! ## The expand-state store -/

/-- C6: in the empty store every identity reads as collapsed; the toggle of
line 65 writes the negation of `isExpanded id` into the entry of `id`, so
the identity then reads flipped, other entries are untouched, and a second
toggle restores the value `isExpanded id` had at first. -/
theorem expandState_toggle (es : ExpandState) (id : Int) :
    isExpanded emptyExpandState id = false
    ∧ toggleExpand es id id = some (!isExpanded es id)
    ∧ isExpanded (toggleExpand es id) id = (!isExpanded es id)
    ∧ (∀ k, k ≠ id → toggleExpand es id k = es k)
    ∧ isExpanded (toggleExpand (toggleExpand es id) id) id = isExpanded es id := by
  refine ⟨rfl, ?_, ?_, ?_, ?_⟩
  · simp [toggleExpand, mapSet]
  · simp [toggleExpand, mapSet, isExpanded]
  · intro k hk
    simp [toggleExpand, mapSet, hk]
  · simp [toggleExpand, mapSet, isExpanded]

/-! ## The edit session -/

/-- C2: a Put whose body read succeeds while `UpdateNote` fails with `uerr`:
the result of `UpdateNote` is discarded (line 221), so a dirty session ends
with `dirty = false`, the window marked clean and no message shown. -/
theorem put_discards_update_failure (id : Int) (warned : Bool) (w : Win)
    (calls : List Call) (g : Except Err Note) (uerr : Err) (q0 : Int) :
    let s : Session :=
      { id := id, dirty := true, dirtyWarned := warned, err := none, w := w, calls := calls }
    let s1 := sessionEvent { readAll := none, getNote := g, updateNote := some uerr } s (evPut q0)
    s1.dirty = false ∧ s1.w.marked = false ∧ s1.w.errs = w.errs
      ∧ s1.calls = calls ++ [Call.UpdateNote id w.body] := by
  simp [sessionEvent, evPut, textPut, loopEnd, Win.Ctl]

/-- C3: a successful Put leaves `dirtyWarned` as it was: from a warned
session the flag is still set after the save, although `dirty` is cleared
and the window is marked clean. -/
theorem put_keeps_dirtyWarned (id : Int) (d : Bool) (w : Win)
    (calls : List Call) (note : Note) (q0 : Int) :
    let s : Session :=
      { id := id, dirty := d, dirtyWarned := true, err := none, w := w, calls := calls }
    let s1 := sessionEvent (envOk note) s (evPut q0)
    s1.dirtyWarned = true ∧ s1.dirty = false ∧ s1.w.marked = false := by
  simp [sessionEvent, evPut, textPut, loopEnd, Win.Ctl, envOk]

/-- C4: the run edit, Get, Put, edit, Get. After the Put the session is not
dirty but still warned; the next edit makes it dirty again, showing `b2`.
The last Get is the first one since the session became dirty again, yet it
calls `GetNote`, shows no second warning and replaces the edited text `b2`
by the saved body `b1`, leaving both flags false. -/
theorem first_get_after_put_discards_edits (id : Int) (b0 b1 b2 : Bytes) :
    ((editGetPut id b0 b1).dirty = false ∧ (editGetPut id b0 b1).dirtyWarned = true
      ∧ (editGetPut id b0 b1).w.errs = [Msg.noteChanged id])
    ∧ ((editGetPutEdit id b0 b1 b2).dirty = true ∧ (editGetPutEdit id b0 b1 b2).w.body = b2
      ∧ (editGetPutEdit id b0 b1 b2).calls = [Call.GetNote id, Call.UpdateNote id b1])
    ∧ ((editGetPutEditGet id b0 b1 b2).w.body = b1
      ∧ (editGetPutEditGet id b0 b1 b2).w.errs = [Msg.noteChanged id]
      ∧ (editGetPutEditGet id b0 b1 b2).calls
          = [Call.GetNote id, Call.UpdateNote id b1, Call.GetNote id]
      ∧ (editGetPutEditGet id b0 b1 b2).dirty = false
      ∧ (editGetPutEditGet id b0 b1 b2).dirtyWarned = false) := by
  simp [editGetPutEditGet, editGetPutEdit, editGetPut, openNote, getBody, sessionEvent,
    userEdit, evInsert, evGet, evPut, textPut, textGet, loopEnd, envOk, noteWithBody, Win.new,
    Win.Ctl, Win.Clear, Win.FprintfBody, Win.FprintfTag, Win.Err]

/-- One insert or delete round: the session is dirty and marked dirty
afterwards, and nothing else of it changes but the edited text. -/
theorem edit_round (s : Session) (x : Edit) (hx : x.event.C2 = 68 ∨ x.event.C2 = 73)
    (herr : s.err = none) (hm : s.dirty = true → s.w.marked = true) :
    (sessionEvent x.env (userEdit s x.text) x.event).dirty = true
    ∧ (sessionEvent x.env (userEdit s x.text) x.event).w.marked = true
    ∧ (sessionEvent x.env (userEdit s x.text) x.event).dirtyWarned = s.dirtyWarned
    ∧ (sessionEvent x.env (userEdit s x.text) x.event).err = none
    ∧ (sessionEvent x.env (userEdit s x.text) x.event).id = s.id
    ∧ (sessionEvent x.env (userEdit s x.text) x.event).calls = s.calls
    ∧ (sessionEvent x.env (userEdit s x.text) x.event).w.errs = s.w.errs := by
  have h120 : x.event.C2 ≠ 120 := by omega
  cases hd : s.dirty
  · simp [sessionEvent, userEdit, h120, hx, hd, loopEnd, herr, Win.Ctl]
  · have := hm hd
    simp [sessionEvent, userEdit, h120, hx, hd, loopEnd, herr, this]

/-- A non-empty run of insert and delete rounds from a session that is not
warned leaves it dirty, not warned and marked dirty. -/
theorem runEdits_dirty (edits : List Edit) :
    ∀ s : Session, edits ≠ [] → (∀ x ∈ edits, x.event.C2 = 68 ∨ x.event.C2 = 73) →
      s.err = none → (s.dirty = true → s.w.marked = true) →
      (runEdits s edits).dirty = true ∧ (runEdits s edits).w.marked = true
      ∧ (runEdits s edits).dirtyWarned = s.dirtyWarned ∧ (runEdits s edits).err = none
      ∧ (runEdits s edits).id = s.id ∧ (runEdits s edits).calls = s.calls
      ∧ (runEdits s edits).w.errs = s.w.errs := by
  induction edits with
  | nil => intro s h; exact absurd rfl h
  | cons x rest ih =>
    intro s _ hall herr hm
    have hx := hall x (List.mem_cons_self _ _)
    obtain ⟨h1, h2, h3, h4, h5, h6, h7⟩ := edit_round s x hx herr hm
    by_cases hrest : rest = []
    · subst hrest
      simp only [runEdits, List.foldl]
      exact ⟨h1, h2, h3, h4, h5, h6, h7⟩
    · have hall2 : ∀ y ∈ rest, y.event.C2 = 68 ∨ y.event.C2 = 73 :=
        fun y hy => hall y (List.mem_cons_of_mem _ hy)
      have := ih (sessionEvent x.env (userEdit s x.text) x.event) hrest hall2 h4 (fun _ => h2)
      simp only [runEdits, List.foldl] at this ⊢
      rw [h3, h5, h6, h7] at this
      exact this

/-- C5: the Get-twice scenario. A successful open leaves both flags false,
the window clean and showing the note body; after one or more insert or
delete rounds the session is dirty, not warned, and the window is marked
dirty; a Get then shows the warning, calls no backend function, keeps the
body and sets both flags; a second Get whose `GetNote` succeeds shows the
backend's body, clears both flags and marks the window clean. -/
theorem get_twice_scenario (id : Int) (note0 note1 : Note) (env0 env1 env2 : Env)
    (edits : List Edit) (q1 q2 : Int)
    (hopen : env0.getNote = Except.ok note0)
    (hne : edits ≠ [])
    (hed : ∀ x ∈ edits, x.event.C2 = 68 ∨ x.event.C2 = 73)
    (hget : env2.getNote = Except.ok note1) :
    let s0 := openNote env0 id
    let s1 := runEdits s0 edits
    let s2 := sessionEvent env1 s1 (evGet q1)
    let s3 := sessionEvent env2 s2 (evGet q2)
    (s0.dirty = false ∧ s0.dirtyWarned = false ∧ s0.w.marked = false
      ∧ s0.w.body = note0.Body)
    ∧ (s1.dirty = true ∧ s1.dirtyWarned = false ∧ s1.w.marked = true)
    ∧ (s2.w.errs = s1.w.errs ++ [Msg.noteChanged id] ∧ s2.calls = s1.calls
      ∧ s2.w.body = s1.w.body ∧ s2.dirty = true ∧ s2.dirtyWarned = true)
    ∧ (s3.w.body = note1.Body ∧ s3.dirty = false ∧ s3.dirtyWarned = false
      ∧ s3.w.marked = false ∧ s3.calls = s2.calls ++ [Call.GetNote id]) := by
  intro s0 s1 s2 s3
  have h0 : s0.dirty = false ∧ s0.dirtyWarned = false ∧ s0.w.marked = false
      ∧ s0.w.body = note0.Body ∧ s0.err = none ∧ s0.id = id := by
    simp [s0, openNote, getBody, hopen, Win.new, Win.Ctl, Win.Clear, Win.FprintfBody,
      Win.FprintfTag]
  obtain ⟨h0d, h0w, h0m, h0b, h0e, h0i⟩ := h0
  have h1 : s1.dirty = true ∧ s1.w.marked = true ∧ s1.dirtyWarned = s0.dirtyWarned
      ∧ s1.err = none ∧ s1.id = s0.id ∧ s1.calls = s0.calls ∧ s1.w.errs = s0.w.errs :=
    runEdits_dirty edits s0 hne hed h0e (fun h => by rw [h0d] at h; cases h)
  obtain ⟨h1d, h1m, h1w, h1e, h1i, _, _⟩ := h1
  rw [h0w] at h1w
  rw [h0i] at h1i
  have h2 : s2 = { s1 with w := s1.w.Err (Msg.noteChanged s1.id), dirtyWarned := true } := by
    simp [s2, sessionEvent, evGet, textGet, textPut, h1d, h1w]
  have h3 : s3 = loopEnd (getBody env2 { s2 with dirtyWarned := false }) := by
    simp [s3, sessionEvent, evGet, textGet, textPut, h2]
  refine ⟨⟨h0d, h0w, h0m, h0b⟩, ⟨h1d, h1w, h1m⟩, ?_, ?_⟩
  · simp [h2, Win.Err, h1i, h1d]
  · rw [h3]
    simp [getBody, hget, loopEnd, h2, h1e, h1i, Win.Ctl, Win.Clear, Win.FprintfBody, Win.Err]

/-- C5 on note 7 with body `hello`, one insertion giving `hello!`, and a
backend that holds `hi` at the second Get: the window ends showing `hi`. -/
theorem get_twice_scenario_witness :
    (sessionEvent (envOk (noteWithBody [104, 105]))
      (sessionEvent (envOk (noteWithBody [104, 105]))
        (runEdits (openNote (envOk (noteWithBody [104, 101, 108, 108, 111])) 7)
          [⟨[104, 101, 108, 108, 111, 33], evInsert 5 [33],
            envOk (noteWithBody [104, 101, 108, 108, 111])⟩])
        (evGet 0)) (evGet 0)).w.body = [104, 105] :=
  (get_twice_scenario 7 (noteWithBody [104, 101, 108, 108, 111]) (noteWithBody [104, 105])
    (envOk (noteWithBody [104, 101, 108, 108, 111])) (envOk (noteWithBody [104, 105]))
    (envOk (noteWithBody [104, 105]))
    [⟨[104, 101, 108, 108, 111, 33], evInsert 5 [33],
      envOk (noteWithBody [104, 101, 108, 108, 111])⟩] 0 0 rfl (by simp)
    (by simp [evInsert]) rfl).2.2.2.1

/-- C10: a Put whose body read succeeds calls `UpdateNote` once, with the
session's id and the whole body text of its window, whatever the backend
answers; a Put whose body read fails calls nothing and changes neither flag. -/
theorem put_persists_buffer (s : Session) (g : Except Err Note) (u : Option Err)
    (rerr : Err) (q0 : Int) :
    (sessionEvent { readAll := none, getNote := g, updateNote := u } s (evPut q0)).calls
        = s.calls ++ [Call.UpdateNote s.id s.w.body]
    ∧ (sessionEvent { readAll := some rerr, getNote := g, updateNote := u } s (evPut q0)).calls
        = s.calls
    ∧ (sessionEvent { readAll := some rerr, getNote := g, updateNote := u } s (evPut q0)).dirty
        = s.dirty
    ∧ (sessionEvent { readAll := some rerr, getNote := g, updateNote := u } s
        (evPut q0)).dirtyWarned = s.dirtyWarned := by
  refine ⟨?_, ?_, ?_, ?_⟩
  · cases he : s.err <;> simp [sessionEvent, evPut, textPut, loopEnd, he]
  · simp [sessionEvent, evPut, textPut]
  · simp [sessionEvent, evPut, textPut]
  · simp [sessionEvent, evPut, textPut]

/-! ## The outline printer -/

/-- C7: whenever `printer` is called for a note the backend finds, the text
it writes starts with `depth` tabs followed by the decoration; the
decoration is a plus or minus sign exactly when the note has a subnote or a
file, minus when the store has it expanded and plus otherwise, and it is a
space for a note with neither, whatever the store holds. -/
theorem decoration_of_line (zk : ZK) (es : ExpandState) (fuel : Nat) (id : Int) (depth : Nat)
    (note : Note) (text : Bytes) (err : Option Err)
    (hz : zk id = Except.ok note) (hp : printer zk es fuel id depth = some (text, err)) :
    (∃ rest, text = indent depth ++ decoration es id note :: rest)
    ∧ ((decoration es id note = 43 ∨ decoration es id note = 45)
        ↔ (0 < note.Subnotes.length ∨ 0 < note.Files.length))
    ∧ ((0 < note.Subnotes.length ∨ 0 < note.Files.length) →
        decoration es id note = if isExpanded es id then 45 else 43)
    ∧ (note.Subnotes.length = 0 → note.Files.length = 0 → decoration es id note = 32) := by
  refine ⟨?_, ?_, ?_, ?_⟩
  · cases fuel with
    | zero => simp [printer] at hp
    | succ n =>
      simp only [printer, hz] at hp
      split at hp
      · split at hp
        · cases hp
        · rename_i out e _
          simp only [Option.some.injEq, Prod.mk.injEq] at hp
          refine ⟨[32, 91] ++ fmtInt id ++ [93, 32] ++ note.Title ++ fileCount note ++ [10]
            ++ out, ?_⟩
          rw [← hp.1]
          simp [renderLine]
      · simp only [Option.some.injEq, Prod.mk.injEq] at hp
        refine ⟨[32, 91] ++ fmtInt id ++ [93, 32] ++ note.Title ++ fileCount note ++ [10], ?_⟩
        rw [← hp.1]
        simp [renderLine]
  · unfold decoration
    split_ifs with h1 h2 <;> simp_all
  · intro h
    simp [decoration, h]
  · intro h1 h2
    simp [decoration, h1, h2]

/-- C7 on the sample backend: the line of the expanded root starts with a
minus sign. -/
theorem decoration_of_line_witness :
    ∃ rest, ([45, 32, 91, 48, 93, 32, 122, 107, 10, 9, 43, 32, 91, 49, 93, 32, 97, 32, 40, 50,
      32, 102, 105, 108, 101, 115, 41, 10, 9, 43, 32, 91, 50, 93, 32, 195, 169, 32, 40, 49, 32,
      102, 105, 108, 101, 41, 10] : Bytes)
      = indent 0 ++ decoration sampleExpand 0 (sampleNotes 0) :: rest :=
  (decoration_of_line sampleZK sampleExpand 2 0 0 (sampleNotes 0) _ none rfl (by decide)).1

/-- C8: a call of `printer` for a note that is found and not expanded writes
that note's line and nothing else, and returns no error; the result is the
same whatever the backend holds for any other note. -/
theorem collapsed_emits_one_line (zk zk2 : ZK) (es : ExpandState) (fuel : Nat) (id : Int)
    (depth : Nat) (note : Note)
    (hz : zk id = Except.ok note) (hz2 : zk2 id = Except.ok note)
    (hc : isExpanded es id = false) :
    printer zk es (fuel + 1) id depth = some (renderLine es id depth note, none)
    ∧ printer zk2 es (fuel + 1) id depth = printer zk es (fuel + 1) id depth := by
  simp [printer, hz, hz2, hc]

/-- C8 on the sample backend with an empty store: the collapsed root, which
has two children, yields the single line `+ [0] zk`. -/
theorem collapsed_emits_one_line_witness :
    printer sampleZK emptyExpandState 1 0 0
      = some ([43, 32, 91, 48, 93, 32, 122, 107, 10], none) :=
  (collapsed_emits_one_line sampleZK sampleZK emptyExpandState 0 0 0 (sampleNotes 0)
    rfl rfl rfl).1


/-! ## The outline against the reference outline -/

/-- The digit loop yields the decimal text of `n` in front of `acc`. -/
theorem fmtNatAux_eq (fuel : Nat) : ∀ (n : Nat) (acc : Bytes), n < fuel →
    fmtNatAux fuel n acc = refDecimal n ++ acc := by
  induction fuel with
  | zero => intro n acc h; omega
  | succ f ih =>
    intro n acc h
    unfold fmtNatAux
    by_cases h10 : n < 10
    · rw [if_pos h10]
      by_cases h0 : n = 0
      · subst h0; simp [refDecimal]
      · have hd : Nat.digits 10 n = [n] := Nat.digits_of_lt 10 n h0 h10
        simp [refDecimal, h0, hd]
    · rw [if_neg h10]
      have hlt : n / 10 < f := by omega
      rw [ih (n / 10) _ hlt]
      have hpos : 0 < n := by omega
      have hq : n / 10 ≠ 0 := by omega
      have hn0 : n ≠ 0 := by omega
      have hd : Nat.digits 10 n = n % 10 :: Nat.digits 10 (n / 10) :=
        Nat.digits_def' (by norm_num) hpos
      simp [refDecimal, hq, hn0, hd]

/-- The verb `%d` on a natural number is its decimal text. -/
theorem fmtNat_eq_refDecimal (n : Nat) : fmtNat n = refDecimal n := by
  simp [fmtNat, fmtNatAux_eq (n + 1) n [] (Nat.lt_succ_self n)]

/-- The verb `%d` on an integer is its decimal text. -/
theorem fmtInt_eq_refDecimalInt (i : Int) : fmtInt i = refDecimalInt i := by
  simp [fmtInt, refDecimalInt, fmtNat_eq_refDecimal]

/-- The file-count text of the code is the suffix of the specification. -/
theorem fileCount_eq_refSuffix (note : Note) : fileCount note = refSuffix note.Files.length := by
  unfold fileCount
  generalize note.Files.length = n
  match n with
  | 0 => simp [refSuffix]
  | 1 => simp [refSuffix]
  | k + 2 => simp [refSuffix, fmtNat_eq_refDecimal]

/-- The decoration of the code is the glyph of the specification. -/
theorem decoration_eq_refDecoration (es : ExpandState) (id : Int) (note : Note) :
    decoration es id note
      = refDecoration (isExpanded es id) note.Subnotes.length note.Files.length := by
  unfold decoration
  generalize note.Subnotes.length = c
  generalize note.Files.length = f
  cases c <;> cases f <;> simp [refDecoration]

/-- The line the code writes for a note is the line of the specification. -/
theorem renderLine_eq_refLine (notes : Int → Note) (es : ExpandState) (id : Int) (depth : Nat) :
    renderLine es id depth (notes id) = refLine notes es (id, depth) := by
  simp [renderLine, refLine, indent, fmtInt_eq_refDecimalInt, fileCount_eq_refSuffix,
    decoration_eq_refDecoration]

/-- More fuel for the children's walks keeps the visits of a list of children. -/
theorem visitAll_mono (visit visit2 : Int → Option (List (Int × Nat)))
    (h : ∀ sub vs, visit sub = some vs → visit2 sub = some vs) :
    ∀ subs r, visitAll visit subs = some r → visitAll visit2 subs = some r := by
  intro subs
  induction subs with
  | nil => intro r hr; simpa [visitAll] using hr
  | cons sub rest ih =>
    intro r hr
    unfold visitAll at hr ⊢
    cases hs : visit sub with
    | none => simp [hs] at hr
    | some vs =>
      cases hrest : visitAll visit rest with
      | none => simp [hs, hrest] at hr
      | some ws =>
        simp only [hs, hrest] at hr
        simp only [h sub vs hs, ih ws hrest]
        exact hr

/-! ## The click resolver -/

/-- The shapes of a decoded rune: one byte wide, being the byte itself or
the replacement rune for a byte from 128 on; or two, three or four bytes
wide, over bytes that are all at least 128, with a value of at least 128. -/
theorem DecodeRune_cases (p0 : Nat) (t : Bytes) :
    ((DecodeRune (p0 :: t)).2 = 1
      ∧ ((DecodeRune (p0 :: t)).1 = p0 ∨ ((DecodeRune (p0 :: t)).1 = RuneError ∧ 128 ≤ p0)))
    ∨ (128 ≤ p0 ∧ 128 ≤ (DecodeRune (p0 :: t)).1
        ∧ ∃ b1 t1, t = b1 :: t1 ∧ 128 ≤ b1 ∧ (DecodeRune (p0 :: t)).2 = 2)
    ∨ (128 ≤ p0 ∧ 128 ≤ (DecodeRune (p0 :: t)).1
        ∧ ∃ b1 b2 t2, t = b1 :: b2 :: t2 ∧ 128 ≤ b1 ∧ 128 ≤ b2 ∧ (DecodeRune (p0 :: t)).2 = 3)
    ∨ (128 ≤ p0 ∧ 128 ≤ (DecodeRune (p0 :: t)).1
        ∧ ∃ b1 b2 b3 t3, t = b1 :: b2 :: b3 :: t3 ∧ 128 ≤ b1 ∧ 128 ≤ b2 ∧ 128 ≤ b3
          ∧ (DecodeRune (p0 :: t)).2 = 4) := by
  by_cases h1 : p0 < 128
  · left; simp [DecodeRune, h1]
  by_cases h2 : p0 < 194
  · left; simp [DecodeRune, h1, h2]; omega
  by_cases h3 : p0 < 224
  · cases t with
    | nil => left; simp [DecodeRune, h1, h2, h3]; omega
    | cons b1 t1 =>
      by_cases hb : 128 ≤ b1 ∧ b1 ≤ 191
      · right; left
        refine ⟨by omega, ?_, b1, t1, rfl, hb.1, ?_⟩
        · simp only [DecodeRune, h1, h2, h3, hb, if_false, if_true, and_self]
          omega
        · simp [DecodeRune, h1, h2, h3, hb]
      · left; simp [DecodeRune, h1, h2, h3, hb]; omega
  by_cases h4 : p0 < 240
  · match t with
    | [] => left; simp [DecodeRune, h1, h2, h3, h4]; omega
    | [_] => left; simp [DecodeRune, h1, h2, h3, h4]; omega
    | b1 :: b2 :: t2 =>
      by_cases hb : (if p0 = 224 then 160 else 128) ≤ b1 ∧ b1 ≤ (if p0 = 237 then 159 else 191)
      · by_cases hc : 128 ≤ b2 ∧ b2 ≤ 191
        · right; right; left
          have hb1 : 128 ≤ b1 := by split_ifs at hb <;> omega
          have hr : 128 ≤ p0 % 16 * 4096 + b1 % 64 * 64 + b2 % 64 := by
            split_ifs at hb <;> omega
          refine ⟨by omega, ?_, b1, b2, t2, rfl, hb1, hc.1, ?_⟩
          · simp only [DecodeRune, h1, h2, h3, h4, hb, hc, if_false, if_true, and_self]
            exact hr
          · simp [DecodeRune, h1, h2, h3, h4, hb, hc]
        · left; simp [DecodeRune, h1, h2, h3, h4, hb, hc]; omega
      · left; simp [DecodeRune, h1, h2, h3, h4, hb]; omega
  by_cases h5 : p0 < 245
  · match t with
    | [] => left; simp [DecodeRune, h1, h2, h3, h4, h5]; omega
    | [_] => left; simp [DecodeRune, h1, h2, h3, h4, h5]; omega
    | [_, _] => left; simp [DecodeRune, h1, h2, h3, h4, h5]; omega
    | b1 :: b2 :: b3 :: t3 =>
      by_cases hb : (if p0 = 240 then 144 else 128) ≤ b1 ∧ b1 ≤ (if p0 = 244 then 143 else 191)
      · by_cases hc : 128 ≤ b2 ∧ b2 ≤ 191
        · by_cases hd : 128 ≤ b3 ∧ b3 ≤ 191
          · right; right; right
            have hb1 : 128 ≤ b1 := by split_ifs at hb <;> omega
            have hr : 128 ≤ p0 % 8 * 262144 + b1 % 64 * 4096 + b2 % 64 * 64 + b3 % 64 := by
              split_ifs at hb <;> omega
            refine ⟨by omega, ?_, b1, b2, b3, t3, rfl, hb1, hc.1, hd.1, ?_⟩
            · simp only [DecodeRune, h1, h2, h3, h4, h5, hb, hc, hd, if_false, if_true, and_self]
              exact hr
            · simp [DecodeRune, h1, h2, h3, h4, h5, hb, hc, hd]
          · left; simp [DecodeRune, h1, h2, h3, h4, h5, hb, hc, hd]; omega
        · left; simp [DecodeRune, h1, h2, h3, h4, h5, hb, hc]; omega
      · left; simp [DecodeRune, h1, h2, h3, h4, h5, hb]; omega
  · left; simp [DecodeRune, h1, h2, h3, h4, h5]; omega

/-- A decoded rune is at least one byte wide and not wider than the buffer. -/
theorem DecodeRune_width (p0 : Nat) (t : Bytes) :
    1 ≤ (DecodeRune (p0 :: t)).2 ∧ (DecodeRune (p0 :: t)).2 ≤ (p0 :: t).length := by
  rcases DecodeRune_cases p0 t with h | ⟨_, _, b1, t1, ht, _, h⟩ | ⟨_, _, b1, b2, t2, ht, _, _, h⟩
    | ⟨_, _, b1, b2, b3, t3, ht, _, _, _, h⟩
  · rw [h.1]; simp
  · rw [h, ht]; simp
  · rw [h, ht]; simp
  · rw [h, ht]; simp

/-- The bytes of one decoded rune hold a newline exactly when the rune is
the newline, and then just one. -/
theorem DecodeRune_newlines (p0 : Nat) (t : Bytes) :
    List.count 10 ((p0 :: t).take (DecodeRune (p0 :: t)).2)
      = if (DecodeRune (p0 :: t)).1 = 10 then 1 else 0 := by
  rcases DecodeRune_cases p0 t with ⟨h, hr⟩ | ⟨hp, hr, b1, t1, ht, h1, h⟩
    | ⟨hp, hr, b1, b2, t2, ht, h1, h2, h⟩ | ⟨hp, hr, b1, b2, b3, t3, ht, h1, h2, h3, h⟩
  · rw [h]
    rcases hr with hr | ⟨hr, hp⟩
    · rw [hr]
      by_cases h10 : p0 = 10 <;> simp [h10, List.count_cons]
    · rw [hr]
      have h10 : p0 ≠ 10 := by omega
      simp [RuneError, h10, List.count_cons]
  · have hr10 : (DecodeRune (p0 :: t)).1 ≠ 10 := by omega
    have hp10 : p0 ≠ 10 := by omega
    have hb1 : b1 ≠ 10 := by omega
    rw [if_neg hr10, h, ht]
    simp [hp10, hb1, List.count_cons]
  · have hr10 : (DecodeRune (p0 :: t)).1 ≠ 10 := by omega
    have hp10 : p0 ≠ 10 := by omega
    have hb1 : b1 ≠ 10 := by omega
    have hb2 : b2 ≠ 10 := by omega
    rw [if_neg hr10, h, ht]
    simp [hp10, hb1, hb2, List.count_cons]
  · have hr10 : (DecodeRune (p0 :: t)).1 ≠ 10 := by omega
    have hp10 : p0 ≠ 10 := by omega
    have hb1 : b1 ≠ 10 := by omega
    have hb2 : b2 ≠ 10 := by omega
    have hb3 : b3 ≠ 10 := by omega
    rw [if_neg hr10, h, ht]
    simp [hp10, hb1, hb2, hb3, List.count_cons]

/-- Every rune offset of a text lies at or after the offset it is counted from. -/
theorem le_of_mem_runeOffsets (fuel : Nat) : ∀ (buf : Bytes) (off x : Nat),
    x ∈ runeOffsets fuel buf off → off ≤ x := by
  induction fuel with
  | zero => intro buf off x h; simp [runeOffsets] at h; omega
  | succ f ih =>
    intro buf off x h
    cases buf with
    | nil => simp [runeOffsets] at h; omega
    | cons p0 t =>
      simp only [runeOffsets, List.mem_cons] at h
      rcases h with h | h
      · omega
      · have := ih _ _ _ h
        omega

/-- The scan loop started on a character boundary `off` of the text reaches
every later boundary `q`, and the line counter grows by the number of
newline bytes between the two. -/
theorem scanLoop_boundary (q : Nat) (fuel : Nat) : ∀ (fuel2 : Nat) (buf : Bytes) (off line : Nat),
    buf.length < fuel → q ∈ runeOffsets fuel2 buf off →
    scanLoop (q : Int) fuel buf (off : Int) line
      = some (Except.ok (line + List.count 10 (buf.take (q - off)))) := by
  induction fuel with
  | zero => intro fuel2 buf off line h; omega
  | succ f ih =>
    intro fuel2 buf off line hlen hq
    unfold scanLoop
    by_cases he : (off : Int) = (q : Int)
    · have : off = q := by exact_mod_cast he
      subst this
      simp
    · rw [if_neg he]
      have hne : off ≠ q := fun h => he (by rw [h])
      cases buf with
      | nil =>
        cases fuel2 <;> simp [runeOffsets] at hq <;> omega
      | cons p0 t =>
        cases fuel2 with
        | zero => simp [runeOffsets] at hq; omega
        | succ g =>
          simp only [runeOffsets, List.mem_cons] at hq
          rcases hq with hq | hq
          · omega
          · obtain ⟨hw1, hw2⟩ := DecodeRune_width p0 t
            have hge := le_of_mem_runeOffsets _ _ _ _ hq
            have hlen2 : ((p0 :: t).drop (DecodeRune (p0 :: t)).2).length < f := by
              simp only [List.length_drop, List.length_cons] at hlen hw2 ⊢
              omega
            have hrec := ih g _ _ (if (DecodeRune (p0 :: t)).1 = 10 then line + 1 else line)
              hlen2 hq
            simp only [ReadRune]
            have hcast : (off : Int) + ((DecodeRune (p0 :: t)).2 : Int)
                = ((off + (DecodeRune (p0 :: t)).2 : Nat) : Int) := by push_cast; rfl
            rw [hcast, hrec]
            have hsplit : (p0 :: t).take (q - off)
                = (p0 :: t).take (DecodeRune (p0 :: t)).2
                  ++ ((p0 :: t).drop (DecodeRune (p0 :: t)).2).take
                      (q - (off + (DecodeRune (p0 :: t)).2)) := by
              have : q - off = (DecodeRune (p0 :: t)).2 + (q - (off + (DecodeRune (p0 :: t)).2)) := by
                omega
              rw [this, List.take_add]
            rw [hsplit, List.count_append, DecodeRune_newlines]
            simp only [Option.some.injEq, Except.ok.injEq]
            split_ifs <;> omega


/-- The pattern finds the first bracketed digits of a text whose part
before the opening bracket has no bracket. -/
theorem findSubmatch_bracket (ds rest : Bytes) (hne : ds ≠ []) (hd : ∀ d ∈ ds, isDigit d = true) :
    ∀ head : Bytes, 91 ∉ head → findSubmatch (head ++ 91 :: (ds ++ 93 :: rest)) = some ds := by
  intro head
  induction head with
  | nil =>
    intro _
    have htw : (ds ++ 93 :: rest).takeWhile isDigit = ds := by
      rw [List.takeWhile_append_of_pos hd]
      simp [List.takeWhile, isDigit]
    have hdw : (ds ++ 93 :: rest).dropWhile isDigit = 93 :: rest := by
      rw [List.dropWhile_append_of_pos hd]
      simp [List.dropWhile, isDigit]
    simp [findSubmatch, matchDigitsClose, htw, hdw, hne]
  | cons c t ih =>
    intro h
    have hc : c ≠ 91 := fun e => h (by simp [e])
    have ht : 91 ∉ t := fun e => h (List.mem_cons_of_mem _ e)
    simp only [List.cons_append, findSubmatch, if_neg hc]
    exact ih ht

/-- Reading decimal digits most significant first gives their value. -/
theorem foldl_digits (L : List Nat) :
    ((L.reverse).map (fun d => 48 + d)).foldl (fun acc c => acc * 10 + (c - 48)) 0
      = Nat.ofDigits 10 L := by
  induction L with
  | nil => simp
  | cons a t ih =>
    simp only [List.reverse_cons, List.map_append, List.map_cons, List.map_nil,
      List.foldl_append, List.foldl_cons, List.foldl_nil, ih, Nat.ofDigits_cons]
    omega

/-- The decimal text of a number that fits a 64-bit `int` parses back to it. -/
theorem Atoi_refDecimal (n : Nat) (h : n < 2 ^ 63) : Atoi (refDecimal n) = Except.ok (n : Int) := by
  unfold Atoi refDecimal
  by_cases h0 : n = 0
  · subst h0; simp
  · rw [if_neg h0]
    simp only [foldl_digits, Nat.ofDigits_digits]
    rw [if_pos h]
    rfl

/-- The decimal text of a number is a non-empty run of digits. -/
theorem refDecimal_digits (n : Nat) :
    refDecimal n ≠ [] ∧ ∀ d ∈ refDecimal n, isDigit d = true := by
  unfold refDecimal
  by_cases h0 : n = 0
  · subst h0; simp [isDigit]
  · rw [if_neg h0]
    constructor
    · simp [Nat.digits_ne_nil_iff_ne_zero, h0]
    · intro d hd
      simp only [List.mem_map, List.mem_reverse] at hd
      obtain ⟨x, hx, rfl⟩ := hd
      have := Nat.digits_lt_base (by norm_num : 1 < 10) hx
      simp [isDigit]
      omega


/-- A written line is its text followed by one newline. -/
theorem renderLine_eq_lineText (es : ExpandState) (id : Int) (depth : Nat) (note : Note) :
    renderLine es id depth note = lineText es id depth note ++ [10] := by
  simp [renderLine, lineText]

/-- A digit is not a newline. -/
theorem ne_newline_of_isDigit (d : Nat) (h : isDigit d = true) : d ≠ 10 := by
  simp [isDigit] at h
  omega

/-- The text of a line has no newline when the title has none. -/
theorem lineText_no_newline (es : ExpandState) (id : Int) (depth : Nat) (note : Note)
    (ht : 10 ∉ note.Title) : 10 ∉ lineText es id depth note := by
  have hdig : ∀ n, 10 ∉ fmtNat n := by
    intro n hn
    rw [fmtNat_eq_refDecimal] at hn
    exact ne_newline_of_isDigit 10 ((refDecimal_digits n).2 10 hn) rfl
  have hint : 10 ∉ fmtInt id := by
    unfold fmtInt
    split_ifs
    · simp [hdig]
    · exact hdig _
  have hdec : decoration es id note ≠ 10 := by
    unfold decoration
    split_ifs <;> decide
  have hfc : 10 ∉ fileCount note := by
    unfold fileCount
    split_ifs
    · simp [hdig]
    · decide
    · simp
  simp [lineText, indent, hint, ht, hfc, Ne.symm hdec]

/-- C1 as stated fails: the render of `negativeNotes` with the root
expanded succeeds on every lookup and has two lines, all of single-byte
characters; the second, at offsets 7 to 16, is the line written for id
`-1`. The pattern has no place for the minus sign, so at offset 8, inside
that line, `getIdForEvent` returns the error `Cannot find an ID` and not
the id. -/
theorem negative_id_not_resolved :
    (updateDisplay (fun id => Except.ok (negativeNotes id)) (toggleExpand emptyExpandState 0) 2
        Win.new).map Win.body
      = some [45, 32, 91, 48, 93, 32, 10, 9, 32, 32, 91, 45, 49, 93, 32, 116, 10]
    ∧ renderLine (toggleExpand emptyExpandState 0) 0 0 (negativeNotes 0)
      = [45, 32, 91, 48, 93, 32, 10]
    ∧ renderLine (toggleExpand emptyExpandState 0) (-1) 1 (negativeNotes (-1))
      = [9, 32, 32, 91, 45, 49, 93, 32, 116, 10]
    ∧ getIdForEvent [45, 32, 91, 48, 93, 32, 10, 9, 32, 32, 91, 45, 49, 93, 32, 116, 10] 8
      = some (Except.error Err.cannotFindId)
    ∧ getIdForEvent [45, 32, 91, 48, 93, 32, 10, 9, 32, 32, 91, 45, 49, 93, 32, 116, 10] 8
      ≠ some (Except.ok (-1)) := by
  decide

/-- A title that holds a newline breaks its line in two: in the render of
`twoLineNotes` offset 8 lies in the text written for id 0 but on the second
line of the body, where no id is found. -/
theorem newline_title_not_resolved :
    (updateDisplay (fun id => Except.ok (twoLineNotes id)) emptyExpandState 1 Win.new).map
        Win.body
      = some [32, 32, 91, 48, 93, 32, 97, 10, 98, 10]
    ∧ getIdForEvent [32, 32, 91, 48, 93, 32, 97, 10, 98, 10] 8
      = some (Except.error Err.cannotFindId) := by
  decide

/-! ## Local edits and failed reloads -/

/-- C15: an insert (`C2 = 'I'`) or delete (`C2 = 'D'`) round on a session
whose `dirty` flag is unset sets the flag, writes the one control message
`dirty` and so marks the window dirty; on a session whose flag is set it
changes neither flag and writes no control message. In both cases
`dirtyWarned` is untouched, and, `err` being nil as it is throughout the
loop, a second round of the same event leaves the session as the first did. -/
theorem local_edit_transition (env : Env) (s : Session) (e : Event)
    (he : e.C2 = 68 ∨ e.C2 = 73) :
    (s.dirty = false →
      (sessionEvent env s e).dirty = true ∧ (sessionEvent env s e).w.marked = true
      ∧ (sessionEvent env s e).w.ctls = s.w.ctls ++ [Ctl.dirty]
      ∧ (sessionEvent env s e).dirtyWarned = s.dirtyWarned)
    ∧ (s.dirty = true →
      (sessionEvent env s e).dirty = true
      ∧ (sessionEvent env s e).dirtyWarned = s.dirtyWarned
      ∧ (sessionEvent env s e).w.ctls = s.w.ctls
      ∧ (sessionEvent env s e).w.marked = s.w.marked)
    ∧ (s.err = none → sessionEvent env (sessionEvent env s e) e = sessionEvent env s e) := by
  have h120 : e.C2 ≠ 120 := by omega
  refine ⟨?_, ?_, ?_⟩
  · intro hd
    cases hs : s.err <;> simp [sessionEvent, h120, he, hd, loopEnd, hs, Win.Ctl, Win.Err]
  · intro hd
    cases hs : s.err <;> simp [sessionEvent, h120, he, hd, loopEnd, hs, Win.Err]
  · intro hs
    cases hd : s.dirty <;> simp [sessionEvent, h120, he, hd, loopEnd, hs, Win.Ctl]

/-- C15 on a clean session showing `hi`: two insert rounds leave it as one does. -/
theorem local_edit_transition_witness :
    sessionEvent (envOk (noteWithBody [104, 105]))
        (sessionEvent (envOk (noteWithBody [104, 105]))
          (openNote (envOk (noteWithBody [104, 105])) 7) (evInsert 2 [33])) (evInsert 2 [33])
      = sessionEvent (envOk (noteWithBody [104, 105]))
          (openNote (envOk (noteWithBody [104, 105])) 7) (evInsert 2 [33]) :=
  (local_edit_transition (envOk (noteWithBody [104, 105]))
    (openNote (envOk (noteWithBody [104, 105])) 7) (evInsert 2 [33]) (Or.inr rfl)).2.2 rfl

/-- C17: a Get that reaches the load (the session is not dirty, or it is
dirty and already warned) while `GetNote` fails with `gerr`: `GetNote` is
called once, the window body and its control messages, hence its marker,
are as before, the `dirty` flag keeps its value, and the message
`Can't open note` is shown. -/
theorem failed_reload_keeps_buffer (env : Env) (s : Session) (q0 : Int) (gerr : Err)
    (hload : s.dirty = false ∨ s.dirtyWarned = true)
    (hfail : env.getNote = Except.error gerr) :
    (sessionEvent env s (evGet q0)).w.body = s.w.body
    ∧ (sessionEvent env s (evGet q0)).w.ctls = s.w.ctls
    ∧ (sessionEvent env s (evGet q0)).w.marked = s.w.marked
    ∧ (sessionEvent env s (evGet q0)).dirty = s.dirty
    ∧ (sessionEvent env s (evGet q0)).calls = s.calls ++ [Call.GetNote s.id]
    ∧ (∃ more, (sessionEvent env s (evGet q0)).w.errs
        = s.w.errs ++ Msg.cantOpenNote s.id gerr :: more) := by
  have hcond : (s.dirty && !s.dirtyWarned) = false := by
    rcases hload with h | h <;> simp [h]
  cases hs : s.err <;>
    simp [sessionEvent, evGet, textGet, textPut, hcond, getBody, hfail, loopEnd, hs, Win.Err]

/-- C17 on an open clean session showing `hi`: a Get whose lookup fails
keeps `hi` in the window. -/
theorem failed_reload_keeps_buffer_witness :
    (sessionEvent { readAll := none, getNote := Except.error Err.backend, updateNote := none }
      (openNote (envOk (noteWithBody [104, 105])) 7) (evGet 0)).w.body = [104, 105] :=
  (failed_reload_keeps_buffer
    { readAll := none, getNote := Except.error Err.backend, updateNote := none }
    (openNote (envOk (noteWithBody [104, 105])) 7) 0 Err.backend (Or.inl rfl) rfl).1

/-! ## The scan loop -/

/-- The scan loop finishes within one round per byte left plus one. -/
theorem scanLoop_finishes (q : Int) (fuel : Nat) : ∀ (buf : Bytes) (i : Int) (line : Nat),
    buf.length < fuel → ∃ r, scanLoop q fuel buf i line = some r := by
  induction fuel with
  | zero => intro buf i line h; omega
  | succ f ih =>
    intro buf i line h
    unfold scanLoop
    by_cases he : i = q
    · exact ⟨_, if_pos he⟩
    · rw [if_neg he]
      cases buf with
      | nil => exact ⟨_, rfl⟩
      | cons p0 t =>
        obtain ⟨hw1, hw2⟩ := DecodeRune_width p0 t
        simp only [ReadRune]
        apply ih
        simp only [List.length_drop, List.length_cons] at h hw2 ⊢
        omega

/-- The scan loop started at `i` with `buf` left ends in the end-of-file
error when the offset sought lies before `i` or after the end of the text. -/
theorem scanLoop_out_of_range (q : Int) (fuel : Nat) : ∀ (buf : Bytes) (i : Int) (line : Nat),
    buf.length < fuel → (q < i ∨ i + buf.length < q) →
    scanLoop q fuel buf i line = some (Except.error Err.eof) := by
  induction fuel with
  | zero => intro buf i line h; omega
  | succ f ih =>
    intro buf i line h hq
    unfold scanLoop
    have he : ¬ i = q := by omega
    rw [if_neg he]
    cases buf with
    | nil => rfl
    | cons p0 t =>
      obtain ⟨hw1, hw2⟩ := DecodeRune_width p0 t
      simp only [ReadRune]
      apply ih
      · simp only [List.length_drop, List.length_cons] at h hw2 ⊢
        omega
      · simp only [List.length_drop, List.length_cons] at hq hw2 ⊢
        omega

/-- C18: for every body text and every integer offset `q` the scan loop of
`getIdForEvent` ends within one round per byte of the body plus one, so
`getIdForEvent` returns; when `q` is negative or greater than the length of
the text, the loop ends in the end-of-file error of `ReadRune`, and that
error is what `getIdForEvent` returns, no line having been addressed. -/
theorem scan_terminates (body : Bytes) (q : Int) :
    (∃ r, scanLoop q (body.length + 1) body 0 1 = some r)
    ∧ (∃ r, getIdForEvent body q = some r)
    ∧ ((q < 0 ∨ (body.length : Int) < q) →
        scanLoop q (body.length + 1) body 0 1 = some (Except.error Err.eof)
        ∧ getIdForEvent body q = some (Except.error Err.eof)) := by
  obtain ⟨r, hr⟩ := scanLoop_finishes q (body.length + 1) body 0 1 (Nat.lt_succ_self _)
  refine ⟨⟨r, hr⟩, ?_, ?_⟩
  · unfold getIdForEvent
    rw [hr]
    cases r with
    | error e => exact ⟨_, rfl⟩
    | ok line =>
      simp only []
      cases addrLine body line with
      | error e => exact ⟨_, rfl⟩
      | ok b =>
        simp only []
        cases findSubmatch b with
        | none => exact ⟨_, rfl⟩
        | some ds => exact ⟨_, rfl⟩
  · intro hq
    have hs := scanLoop_out_of_range q (body.length + 1) body 0 1 (Nat.lt_succ_self _)
      (by omega)
    refine ⟨hs, ?_⟩
    unfold getIdForEvent
    rw [hs]

/-- C18 on the two-byte text `hi`: the offset 5 lies after its end. -/
theorem scan_terminates_witness :
    getIdForEvent [104, 105] 5 = some (Except.error Err.eof) :=
  ((scan_terminates [104, 105] 5).2.2 (Or.inr (by decide))).2

/-! ## The browser loop -/

/-- C12: a render whose first lookup fails with `e`, run by `updateDisplay`
and by the `Update` round of the loop of `main`: the error returned by
`printer(0, 0)` is dropped (line 169), so the window shows no message,
nothing is printed, and the body is left empty. -/
theorem render_failure_not_reported (es : ExpandState) (w : Win) (fuel : Nat) (e : Err)
    (opened : List Int) (printed : List Err) (q0 : Int) :
    printer (fun _ => Except.error e) es (fuel + 1) 0 0 = some ([], some e)
    ∧ (∃ w2, updateDisplay (fun _ => Except.error e) es (fuel + 1) w = some w2
        ∧ w2.errs = w.errs ∧ w2.body = [])
    ∧ (∃ b2, mainEvent (fun _ => Except.error e) (fuel + 1)
          { es := es, w := w, opened := opened, err := none, printed := printed }
          ⟨120, q0, textUpdate⟩ = some b2
        ∧ b2.w.errs = w.errs ∧ b2.printed = printed ∧ b2.w.body = []) := by
  refine ⟨by simp [printer], ?_, ?_⟩
  · simp [updateDisplay, printer, Win.Ctl, Win.Clear, Win.FprintfBody]
  · simp [mainEvent, mainLoopEnd, updateDisplay, printer, Win.Ctl, Win.Clear, Win.FprintfBody]

/-- What the pattern finds is a bracketed identity of the text. -/
theorem HasAnchor_of_findSubmatch : ∀ (line ds : Bytes), findSubmatch line = some ds →
    HasAnchor line := by
  intro line
  induction line with
  | nil => intro ds h; simp [findSubmatch] at h
  | cons c t ih =>
    intro ds h
    unfold findSubmatch at h
    by_cases hc : c = 91
    · rw [if_pos hc] at h
      cases hm : matchDigitsClose t with
      | some ds2 =>
        unfold matchDigitsClose at hm
        simp only [] at hm
        split_ifs at hm with hcond
        cases hm
        obtain ⟨hne, hhead⟩ := hcond
        obtain ⟨rest, hrest⟩ : ∃ rest, t.dropWhile isDigit = 93 :: rest := by
          cases hdw : t.dropWhile isDigit with
          | nil => simp [hdw] at hhead
          | cons x xs =>
            simp only [hdw, List.head?_cons, Option.some.injEq] at hhead
            exact ⟨xs, by rw [hhead]⟩
        refine ⟨[], t.takeWhile isDigit, rest, hne, ?_, ?_⟩
        · intro d hd
          exact (List.mem_takeWhile_imp hd)
        · rw [hc, List.nil_append, ← hrest, List.takeWhile_append_dropWhile]
      | none =>
        rw [hm] at h
        obtain ⟨pre, ds2, post, h1, h2, h3⟩ := ih ds h
        exact ⟨c :: pre, ds2, post, h1, h2, by rw [h3]; rfl⟩
    · rw [if_neg hc] at h
      obtain ⟨pre, ds2, post, h1, h2, h3⟩ := ih ds h
      exact ⟨c :: pre, ds2, post, h1, h2, by rw [h3]; rfl⟩

/-- A body-execution or look round whose click does not resolve leaves the
browser as it was. -/
theorem mainEvent_of_error (zk : ZK) (fuel : Nat) (b : Browser) (e : Event) (err : Err)
    (hC : e.C2 = 88 ∨ e.C2 = 108 ∨ e.C2 = 76)
    (hid : getIdForEvent b.w.body e.Q0 = some (Except.error err)) :
    mainEvent zk fuel b e = some b := by
  have h120 : e.C2 ≠ 120 := by omega
  unfold mainEvent
  rw [if_neg h120]
  by_cases h88 : e.C2 = 88
  · rw [if_pos h88, hid]
  · have hl : e.C2 = 108 ∨ e.C2 = 76 := by omega
    rw [if_neg h88, if_pos hl, hid]

/-- C13: when the scan of the click offset reaches line `L`, and the text
addressed as line `L` of the body holds no bracketed identity, then
`getIdForEvent` returns the error `Cannot find an ID`, and the round of
`main` for that body-execution (`X`) or look (`l`, `L`) event leaves the
browser as it was: the expand-state store, the window with every control
message written to it (so no redraw), and the list of sessions started. -/
theorem unresolvable_click_dropped (zk : ZK) (fuel : Nat) (b : Browser) (e : Event)
    (L : Nat) (line : Bytes)
    (hC : e.C2 = 88 ∨ e.C2 = 108 ∨ e.C2 = 76)
    (hscan : scanLoop e.Q0 (b.w.body.length + 1) b.w.body 0 1 = some (Except.ok L))
    (haddr : addrLine b.w.body L = Except.ok line)
    (hno : ¬ HasAnchor line) :
    getIdForEvent b.w.body e.Q0 = some (Except.error Err.cannotFindId)
    ∧ mainEvent zk fuel b e = some b := by
  have hfind : findSubmatch line = none := by
    cases hf : findSubmatch line with
    | none => rfl
    | some ds => exact absurd (HasAnchor_of_findSubmatch line ds hf) hno
  have hid : getIdForEvent b.w.body e.Q0 = some (Except.error Err.cannotFindId) := by
    unfold getIdForEvent
    rw [hscan]
    simp only [haddr, hfind]
  exact ⟨hid, mainEvent_of_error zk fuel b e _ hC hid⟩

/-- C13 on a window showing `hi` and a newline: a middle click at offset 1
falls on a line without identity and changes nothing. -/
theorem unresolvable_click_dropped_witness :
    getIdForEvent [104, 105, 10] 1 = some (Except.error Err.cannotFindId) :=
  (unresolvable_click_dropped sampleZK 2
    { es := emptyExpandState, w := { Win.new with body := [104, 105, 10] }, opened := [],
      err := none, printed := [] }
    ⟨88, 1, []⟩ 1 [104, 105, 10] (Or.inl rfl) (by decide) (by decide)
    (by
      rintro ⟨pre, ds, post, -, -, h⟩
      have hm : (91 : Nat) ∈ ([104, 105, 10] : Bytes) := by rw [h]; simp
      revert hm
      decide)).1

/-! ## A render that meets a failing lookup -/

/-- The first error of two walks in a row. -/
theorem firstError_append (zk : ZK) (a b : List (Int × Nat)) :
    firstError zk (a ++ b)
      = match firstError zk a with
        | some e => some e
        | none => firstError zk b := by
  induction a with
  | nil => simp [firstError]
  | cons v rest ih =>
    simp only [List.cons_append, firstError]
    cases zk v.1 with
    | error e => rfl
    | ok n => exact ih

/-- The part before the first failure of two walks in a row. -/
theorem okPrefix_append (zk : ZK) (a b : List (Int × Nat)) :
    okPrefix zk (a ++ b)
      = match firstError zk a with
        | some _ => okPrefix zk a
        | none => a ++ okPrefix zk b := by
  induction a with
  | nil => simp [firstError, okPrefix]
  | cons v rest ih =>
    cases hz : zk v.1 with
    | error e => simp [firstError, okPrefix, hz]
    | ok n =>
      have hcons : okPrefix zk (v :: rest ++ b) = v :: okPrefix zk (rest ++ b) := by
        simp [okPrefix, hz]
      rw [hcons, ih]
      simp only [firstError, okPrefix, hz]
      cases firstError zk rest <;> rfl

/-- A walk without failing lookup is its own part before the first failure. -/
theorem okPrefix_of_no_error (zk : ZK) (a : List (Int × Nat)) (h : firstError zk a = none) :
    okPrefix zk a = a := by
  have := okPrefix_append zk a []
  simp only [List.append_nil, h, okPrefix] at this
  exact this

/-- The subnote loop over calls that follow a walk writes the lines of the
children's visits up to the first failing lookup and returns its error. -/
theorem forSubnotes_abort (zk : ZK) (es : ExpandState)
    (call : Int → Option (Bytes × Option Err)) (visit : Int → Option (List (Int × Nat)))
    (h : ∀ sub ws, visit sub = some ws →
      call sub = some (linesOf zk es (okPrefix zk ws), firstError zk ws)) :
    ∀ subs ws, visitAll visit subs = some ws →
      forSubnotes call subs = some (linesOf zk es (okPrefix zk ws), firstError zk ws) := by
  intro subs
  induction subs with
  | nil =>
    intro ws hw
    simp only [visitAll, Option.some.injEq] at hw
    subst hw
    simp [forSubnotes, linesOf, okPrefix, firstError]
  | cons sub rest ih =>
    intro ws hw
    unfold visitAll at hw
    cases hs : visit sub with
    | none => simp [hs] at hw
    | some a =>
      cases hr : visitAll visit rest with
      | none => simp [hs, hr] at hw
      | some b =>
        simp only [hs, hr, Option.some.injEq] at hw
        subst hw
        unfold forSubnotes
        rw [h sub a hs, okPrefix_append, firstError_append]
        cases he : firstError zk a with
        | some e => rfl
        | none =>
          simp only [ih b hr, okPrefix_of_no_error zk a he]
          simp [linesOf]

/-- A printer call whose walk is finite writes the lines of the walk up to
the first failing lookup and returns the error of that lookup, if any. -/
theorem printer_abort (zk : ZK) (es : ExpandState) (fuel : Nat) :
    ∀ (id : Int) (depth : Nat) (vs : List (Int × Nat)),
      preorderZK zk es fuel id depth = some vs →
      printer zk es fuel id depth = some (linesOf zk es (okPrefix zk vs), firstError zk vs) := by
  induction fuel with
  | zero => intro id depth vs h; simp [preorderZK] at h
  | succ f ih =>
    intro id depth vs h
    rw [preorderZK] at h
    rw [printer]
    cases hz : zk id with
    | error e =>
      simp only [hz, Option.some.injEq] at h
      subst h
      simp [okPrefix, firstError, hz, linesOf]
    | ok note =>
      simp only [hz] at h ⊢
      by_cases hx : isExpanded es id = true
      · rw [if_pos hx] at h ⊢
        cases hc : visitAll (fun sub => preorderZK zk es f sub (depth + 1)) note.Subnotes with
        | none => simp [hc] at h
        | some ws =>
          simp only [hc, Option.some.injEq] at h
          subst h
          rw [forSubnotes_abort zk es _ _ (fun sub ws2 h2 => ih sub (depth + 1) ws2 h2) _ ws hc]
          simp [okPrefix, firstError, hz, linesOf, noteOf]
      · rw [if_neg hx] at h ⊢
        simp only [Option.some.injEq] at h
        subst h
        simp [okPrefix, firstError, hz, linesOf, noteOf]

/-- A finite walk is the same with one more unit of fuel. -/
theorem preorderZK_succ (zk : ZK) (es : ExpandState) (fuel : Nat) :
    ∀ (id : Int) (depth : Nat) (vs : List (Int × Nat)),
      preorderZK zk es fuel id depth = some vs →
      preorderZK zk es (fuel + 1) id depth = some vs := by
  induction fuel with
  | zero => intro id depth vs h; simp [preorderZK] at h
  | succ f ih =>
    intro id depth vs h
    rw [preorderZK] at h ⊢
    cases hz : zk id with
    | error e => simpa [hz] using h
    | ok note =>
      simp only [hz] at h ⊢
      by_cases hx : isExpanded es id = true
      · rw [if_pos hx] at h ⊢
        cases hc : visitAll (fun sub => preorderZK zk es f sub (depth + 1)) note.Subnotes with
        | none => simp [hc] at h
        | some ws =>
          rw [visitAll_mono _ (fun sub => preorderZK zk es (f + 1) sub (depth + 1))
            (fun sub r hr => ih sub (depth + 1) r hr) _ ws hc]
          simpa [hc] using h
      · rw [if_neg hx] at h ⊢
        exact h

/-- A finite walk is the same with any larger fuel. -/
theorem preorderZK_mono (zk : ZK) (es : ExpandState) (fuel fuel2 : Nat)
    (hf : fuel ≤ fuel2) (id : Int) (depth : Nat) (vs : List (Int × Nat))
    (h : preorderZK zk es fuel id depth = some vs) :
    preorderZK zk es fuel2 id depth = some vs := by
  induction fuel2 with
  | zero =>
    have : fuel = 0 := by omega
    subst this
    exact h
  | succ g ih =>
    by_cases hg : fuel ≤ g
    · exact preorderZK_succ zk es g id depth vs (ih hg)
    · have : fuel = g + 1 := by omega
      subst this
      exact h

/-- A run of visits whose lookups all succeed has no first error. -/
theorem firstError_of_ok (zk : ZK) (a : List (Int × Nat))
    (h : ∀ v ∈ a, ∃ note, zk v.1 = Except.ok note) : firstError zk a = none := by
  induction a with
  | nil => rfl
  | cons v rest ih =>
    obtain ⟨note, hn⟩ := h v (List.mem_cons_self _ _)
    simp only [firstError, hn]
    exact ih (fun x hx => h x (List.mem_cons_of_mem _ hx))

/-- In a walk whose `j`-th lookup is the first to fail, the part before the
first failure is the first `j` visits, and the first error is that lookup's. -/
theorem okPrefix_of_first_failure (zk : ZK) (vs : List (Int × Nat)) (j : Nat) (e : Err)
    (hj : j < vs.length) (hfail : zk (vs.get ⟨j, hj⟩).1 = Except.error e)
    (hok : ∀ v ∈ vs.take j, ∃ note, zk v.1 = Except.ok note) :
    okPrefix zk vs = vs.take j ∧ firstError zk vs = some e := by
  have hdrop : vs.drop j = vs.get ⟨j, hj⟩ :: vs.drop (j + 1) := List.drop_eq_getElem_cons hj
  have hvs : vs = vs.take j ++ vs.get ⟨j, hj⟩ :: vs.drop (j + 1) := by
    rw [← hdrop, List.take_append_drop]
  have hnone := firstError_of_ok zk (vs.take j) hok
  have hfail2 : zk vs[j].1 = Except.error e := hfail
  constructor
  · conv_lhs => rw [hvs]
    rw [okPrefix_append, hnone]
    simp [okPrefix, hfail2]
  · conv_lhs => rw [hvs]
    rw [firstError_append, hnone]
    simp [firstError, hfail2]

/-- C11: take the pre-order walk from note 0 at depth 0 through the notes
that are found and expanded, and let its `j`-th note be the first whose
`GetNote` fails, with error `e`. Then, for every recursion bound that fits
the walk, `printer(0, 0)` returns `e`, and the text it has written, which
`updateDisplay` leaves in the body, is exactly the lines of the `j` notes
visited before it: no line for the failing note or for any later one, and
nothing taken back. -/
theorem render_aborts_at_first_failure (zk : ZK) (es : ExpandState) (fuel fuel2 : Nat)
    (w : Win) (vs : List (Int × Nat)) (j : Nat) (e : Err)
    (hv : preorderZK zk es fuel 0 0 = some vs) (hf : fuel ≤ fuel2)
    (hj : j < vs.length) (hfail : zk (vs.get ⟨j, hj⟩).1 = Except.error e)
    (hok : ∀ v ∈ vs.take j, ∃ note, zk v.1 = Except.ok note) :
    printer zk es fuel2 0 0 = some (linesOf zk es (vs.take j), some e)
    ∧ ∃ w2, updateDisplay zk es fuel2 w = some w2
        ∧ w2.body = linesOf zk es (vs.take j) := by
  have hp := printer_abort zk es fuel2 0 0 vs (preorderZK_mono zk es fuel fuel2 hf 0 0 vs hv)
  obtain ⟨h1, h2⟩ := okPrefix_of_first_failure zk vs j e hj hfail hok
  rw [h1, h2] at hp
  refine ⟨hp, ?_⟩
  simp [updateDisplay, hp, Win.Ctl, Win.Clear, Win.FprintfBody]

/-- C11 on `brokenZK` with the root expanded: the walk is notes 0, 1, 2, the
lookup of note 1 fails, and only the line of note 0 is written. -/
theorem render_aborts_at_first_failure_witness :
    printer brokenZK sampleExpand 3 0 0
      = some ([45, 32, 91, 48, 93, 32, 122, 107, 10], some Err.notFound) :=
  (render_aborts_at_first_failure brokenZK sampleExpand 2 3 Win.new [(0, 0), (1, 1), (2, 1)] 1
    Err.notFound (by decide) (by decide) (by decide) (by decide)
    (by
      intro v hv
      simp only [List.take_succ_cons, List.take_zero, List.mem_singleton] at hv
      subst hv
      exact ⟨_, rfl⟩)).1

/-! ## Termination of the render -/

/-- The visits of a list of children exist when the walk of each child does. -/
theorem visitAll_some (visit : Int → Option (List (Int × Nat))) :
    ∀ subs : List Int, (∀ sub ∈ subs, ∃ ws, visit sub = some ws) →
      ∃ vs, visitAll visit subs = some vs := by
  intro subs
  induction subs with
  | nil => intro _; exact ⟨[], rfl⟩
  | cons sub rest ih =>
    intro h
    obtain ⟨ws, hws⟩ := h sub (List.mem_cons_self _ _)
    obtain ⟨vs, hvs⟩ := ih (fun x hx => h x (List.mem_cons_of_mem _ hx))
    exact ⟨ws ++ vs, by simp [visitAll, hws, hvs]⟩

/-- The walk from a note is finite when the walks from its children are. -/
theorem preorderZK_step (zk : ZK) (es : ExpandState) (f : Nat) (id : Int) (depth : Nat)
    (h : ∀ note, zk id = Except.ok note → isExpanded es id = true →
      ∀ sub ∈ note.Subnotes, ∃ ws, preorderZK zk es f sub (depth + 1) = some ws) :
    ∃ vs, preorderZK zk es (f + 1) id depth = some vs := by
  rw [preorderZK]
  cases hz : zk id with
  | error e => exact ⟨_, rfl⟩
  | ok note =>
    simp only []
    by_cases hx : isExpanded es id = true
    · rw [if_pos hx]
      obtain ⟨vs, hvs⟩ := visitAll_some (fun sub => preorderZK zk es f sub (depth + 1))
        note.Subnotes (h note hz hx)
      exact ⟨_, by rw [hvs]⟩
    · rw [if_neg hx]
      exact ⟨_, rfl⟩

/-- In a backend without a cycle through expanded notes below the root, and
with the expanded notes among the finite list `E`, the walk from a note
that the root reaches is finite with a fuel that covers the notes of `E`
not yet among the ancestors `anc`. -/
theorem preorderZK_finite (zk : ZK) (es : ExpandState) (E : List Int)
    (hfin : ∀ id, isExpanded es id = true → id ∈ E)
    (hacyc : ∀ a, Relation.ReflTransGen (Edge zk es) 0 a →
      ¬ Relation.TransGen (Edge zk es) a a) (n : Nat) :
    ∀ (id : Int) (depth : Nat) (anc : List Int),
      Relation.ReflTransGen (Edge zk es) 0 id → anc.Nodup →
      (∀ a ∈ anc, a ∈ E ∧ Relation.TransGen (Edge zk es) a id) →
      E.length ≤ anc.length + n →
      ∃ vs, preorderZK zk es (n + 1) id depth = some vs := by
  induction n with
  | zero =>
    intro id depth anc hreach hnd hanc hlen
    apply preorderZK_step
    intro note hz hx sub hsub
    exfalso
    have hnot : id ∉ anc := fun hm => hacyc id hreach (hanc id hm).2
    have hnd2 : (id :: anc).Nodup := List.nodup_cons.2 ⟨hnot, hnd⟩
    have hsubset : (id :: anc) ⊆ E := by
      intro a ha
      rcases List.mem_cons.1 ha with h | h
      · rw [h]; exact hfin id hx
      · exact (hanc a h).1
    have := (hnd2.subperm hsubset).length_le
    simp only [List.length_cons] at this
    omega
  | succ m ih =>
    intro id depth anc hreach hnd hanc hlen
    apply preorderZK_step
    intro note hz hx sub hsub
    have hedge : Edge zk es id sub := ⟨hx, note, hz, hsub⟩
    have hnot : id ∉ anc := fun hm => hacyc id hreach (hanc id hm).2
    apply ih sub (depth + 1) (id :: anc) (hreach.tail hedge) (List.nodup_cons.2 ⟨hnot, hnd⟩)
    · intro a ha
      rcases List.mem_cons.1 ha with h | h
      · rw [h]; exact ⟨hfin id hx, Relation.TransGen.single hedge⟩
      · exact ⟨(hanc a h).1, (hanc a h).2.tail hedge⟩
    · simp only [List.length_cons]
      omega

/-! ## Visits and paths -/

/-- The paths through numbered children end, in order, at the notes the
walks of the children visit. -/
theorem childPaths_visits (zk : ZK) (es : ExpandState) (id : Int)
    (visit : Int → Option (List (Int × Nat))) (paths : Int → Option (List (List Nat)))
    (H : ∀ sub ws, visit sub = some ws →
      ∃ ps, paths sub = some ps
        ∧ ps.map (followPath zk es sub) = ws.map (fun v => some v.1)) :
    ∀ cs : List (Nat × Int),
      (∀ c ∈ cs, ∀ p, followPath zk es id (c.1 :: p) = followPath zk es c.2 p) →
      ∀ ws, visitAll visit (cs.map Prod.snd) = some ws →
        ∃ qs, childPaths paths cs = some qs
          ∧ qs.map (followPath zk es id) = ws.map (fun v => some v.1) := by
  intro cs
  induction cs with
  | nil =>
    intro _ ws hw
    simp only [List.map_nil, visitAll, Option.some.injEq] at hw
    subst hw
    exact ⟨[], rfl, rfl⟩
  | cons c rest ih =>
    intro hstep ws hw
    simp only [List.map_cons] at hw
    unfold visitAll at hw
    cases hs : visit c.2 with
    | none => simp [hs] at hw
    | some a =>
      cases hr : visitAll visit (rest.map Prod.snd) with
      | none => simp [hs, hr] at hw
      | some b =>
        simp only [hs, hr, Option.some.injEq] at hw
        subst hw
        obtain ⟨ps, hps, hpm⟩ := H c.2 a hs
        obtain ⟨qs, hqs, hqm⟩ :=
          ih (fun x hx => hstep x (List.mem_cons_of_mem _ hx)) b hr
        refine ⟨ps.map (fun p => c.1 :: p) ++ qs, by simp [childPaths, hps, hqs], ?_⟩
        rw [List.map_append, List.map_append, hqm, ← hpm, List.map_map]
        congr 1
        apply List.map_congr_left
        intro p _
        exact hstep c (List.mem_cons_self _ _) p

/-- A link taken at position `i` of a found and expanded note leads on from
the subnote listed there. -/
theorem followPath_link (zk : ZK) (es : ExpandState) (id : Int) (note : Note)
    (hz : zk id = Except.ok note) (hx : isExpanded es id = true) (i : Nat) (sub : Int)
    (hi : note.Subnotes[i]? = some sub) (p : List Nat) :
    followPath zk es id (i :: p) = followPath zk es sub p := by
  simp [followPath, hx, hz, hi]

/-- The paths from a note end, in order, at the notes its walk visits. -/
theorem pathsFrom_visits (zk : ZK) (es : ExpandState) (fuel : Nat) :
    ∀ (id : Int) (depth : Nat) (vs : List (Int × Nat)),
      preorderZK zk es fuel id depth = some vs →
      ∃ ps, pathsFrom zk es fuel id = some ps
        ∧ ps.map (followPath zk es id) = vs.map (fun v => some v.1) := by
  induction fuel with
  | zero => intro id depth vs h; simp [preorderZK] at h
  | succ f ih =>
    intro id depth vs h
    rw [preorderZK] at h
    rw [pathsFrom]
    cases hz : zk id with
    | error e =>
      simp only [hz, Option.some.injEq] at h
      subst h
      exact ⟨[[]], rfl, by simp [followPath]⟩
    | ok note =>
      simp only [hz] at h ⊢
      by_cases hx : isExpanded es id = true
      · rw [if_pos hx] at h ⊢
        cases hc : visitAll (fun sub => preorderZK zk es f sub (depth + 1)) note.Subnotes with
        | none => simp [hc] at h
        | some ws =>
          simp only [hc, Option.some.injEq] at h
          subst h
          have hc2 : visitAll (fun sub => preorderZK zk es f sub (depth + 1))
              (note.Subnotes.enum.map Prod.snd) = some ws := by
            rw [List.enum_map_snd]; exact hc
          obtain ⟨qs, hqs, hqm⟩ := childPaths_visits zk es id
            (fun sub => preorderZK zk es f sub (depth + 1)) (pathsFrom zk es f)
            (fun sub ws2 h2 => ih sub (depth + 1) ws2 h2) note.Subnotes.enum
            (fun c hcm p => followPath_link zk es id note hz hx c.1 c.2
              (List.mem_enum_iff_getElem?.1 hcm) p) ws hc2
          refine ⟨[] :: qs, by rw [hqs], ?_⟩
          simp [followPath, hqm]
      · rw [if_neg hx] at h ⊢
        simp only [Option.some.injEq] at h
        subst h
        exact ⟨[[]], rfl, by simp [followPath]⟩

/-- The paths through numbered children with distinct numbers are without
repetition and are exactly a child's number followed by a path from it. -/
theorem childPaths_paths (paths : Int → Option (List (List Nat)))
    (valid : Int → List Nat → Prop) :
    ∀ cs : List (Nat × Int), (cs.map Prod.fst).Nodup →
      (∀ c ∈ cs, ∀ ps, paths c.2 = some ps → ps.Nodup ∧ ∀ p, p ∈ ps ↔ valid c.2 p) →
      ∀ qs, childPaths paths cs = some qs →
        qs.Nodup ∧ ∀ q, q ∈ qs ↔ ∃ c ∈ cs, ∃ p, q = c.1 :: p ∧ valid c.2 p := by
  intro cs
  induction cs with
  | nil =>
    intro _ _ qs hq
    simp only [childPaths, Option.some.injEq] at hq
    subst hq
    simp
  | cons c rest ih =>
    intro hnd H qs hq
    unfold childPaths at hq
    cases hp : paths c.2 with
    | none => simp [hp] at hq
    | some ps =>
      cases hr : childPaths paths rest with
      | none => simp [hp, hr] at hq
      | some rs =>
        simp only [hp, hr, Option.some.injEq] at hq
        subst hq
        simp only [List.map_cons, List.nodup_cons] at hnd
        obtain ⟨hps1, hps2⟩ := H c (List.mem_cons_self _ _) ps hp
        obtain ⟨hrs1, hrs2⟩ := ih hnd.2 (fun x hx => H x (List.mem_cons_of_mem _ hx)) rs hr
        constructor
        · rw [List.nodup_append]
          refine ⟨hps1.map (fun a b hab => by simpa using hab), hrs1, ?_⟩
          intro q hq1 hq2
          obtain ⟨p, _, rfl⟩ := List.mem_map.1 hq1
          obtain ⟨c2, hc2, p2, heq, _⟩ := (hrs2 _).1 hq2
          simp only [List.cons.injEq] at heq
          exact hnd.1 (List.mem_map.2 ⟨c2, hc2, heq.1.symm⟩)
        · intro q
          rw [List.mem_append, List.mem_map, hrs2]
          constructor
          · rintro (⟨p, hp1, rfl⟩ | ⟨c2, hc2, p2, heq, hv⟩)
            · exact ⟨c, List.mem_cons_self _ _, p, rfl, (hps2 p).1 hp1⟩
            · exact ⟨c2, List.mem_cons_of_mem _ hc2, p2, heq, hv⟩
          · rintro ⟨c2, hc2, p2, heq, hv⟩
            rcases List.mem_cons.1 hc2 with h | h
            · subst h
              exact Or.inl ⟨p2, (hps2 p2).2 hv, heq.symm⟩
            · exact Or.inr ⟨c2, h, p2, heq, hv⟩

/-- The paths listed from a note are without repetition and are exactly
the lists that are paths from it. -/
theorem pathsFrom_paths (zk : ZK) (es : ExpandState) (fuel : Nat) :
    ∀ (id : Int) (ps : List (List Nat)), pathsFrom zk es fuel id = some ps →
      ps.Nodup ∧ ∀ p, p ∈ ps ↔ (followPath zk es id p).isSome = true := by
  induction fuel with
  | zero => intro id ps h; simp [pathsFrom] at h
  | succ f ih =>
    intro id ps h
    rw [pathsFrom] at h
    have hleaf : (∀ i p, followPath zk es id (i :: p) = none) →
        ([[]] : List (List Nat)).Nodup
        ∧ ∀ p, p ∈ ([[]] : List (List Nat)) ↔ (followPath zk es id p).isSome = true := by
      intro hn
      refine ⟨by simp, ?_⟩
      intro p
      cases p with
      | nil => simp [followPath]
      | cons i p => simp [hn i p]
    cases hz : zk id with
    | error e =>
      simp only [hz, Option.some.injEq] at h
      subst h
      exact hleaf (fun i p => by simp [followPath, hz])
    | ok note =>
      simp only [hz] at h
      by_cases hx : isExpanded es id = true
      · rw [if_pos hx] at h
        cases hc : childPaths (pathsFrom zk es f) note.Subnotes.enum with
        | none => simp [hc] at h
        | some qs =>
          simp only [hc, Option.some.injEq] at h
          subst h
          have hnd : (note.Subnotes.enum.map Prod.fst).Nodup := by
            rw [List.enum_map_fst]; exact List.nodup_range _
          obtain ⟨hq1, hq2⟩ := childPaths_paths (pathsFrom zk es f)
            (fun sub p => (followPath zk es sub p).isSome = true) note.Subnotes.enum hnd
            (fun c _ ps hps => ih c.2 ps hps) qs hc
          constructor
          · rw [List.nodup_cons]
            refine ⟨?_, hq1⟩
            intro hm
            obtain ⟨c, _, p, heq, _⟩ := (hq2 _).1 hm
            cases heq
          · intro p
            cases p with
            | nil => simp [followPath]
            | cons i p =>
              rw [List.mem_cons, hq2]
              constructor
              · rintro (h | ⟨c, hc1, p2, heq, hv⟩)
                · cases h
                · simp only [List.cons.injEq] at heq
                  obtain ⟨rfl, rfl⟩ := heq
                  rw [followPath_link zk es id note hz hx c.1 c.2
                    (List.mem_enum_iff_getElem?.1 hc1)]
                  exact hv
              · intro hv
                right
                cases hi : note.Subnotes[i]? with
                | none => simp [followPath, hx, hz, hi] at hv
                | some sub =>
                  rw [followPath_link zk es id note hz hx i sub hi] at hv
                  exact ⟨(i, sub), List.mk_mem_enum_iff_getElem?.2 hi, p, rfl, hv⟩
      · rw [if_neg hx] at h
        simp only [Option.some.injEq] at h
        subst h
        exact hleaf (fun i p => by simp [followPath, hx])

/-- A backend in which only the root is expanded, and the root does not
list itself, has no cycle through expanded notes. -/
theorem acyclic_of_root_only (zk : ZK) (es : ExpandState)
    (hx : ∀ id, isExpanded es id = true → id = 0)
    (h0 : ∀ note, zk 0 = Except.ok note → (0 : Int) ∉ note.Subnotes) :
    ∀ a, Relation.ReflTransGen (Edge zk es) 0 a → ¬ Relation.TransGen (Edge zk es) a a := by
  intro a _ hcyc
  obtain ⟨b, hab, _⟩ := Relation.TransGen.head'_iff.1 hcyc
  obtain ⟨c, _, hca⟩ := Relation.TransGen.tail'_iff.1 hcyc
  have ha : a = 0 := hx a hab.1
  have hc : c = 0 := hx c hca.1
  obtain ⟨note, hz, hm⟩ := hca.2
  rw [hc] at hz
  rw [ha] at hm
  exact h0 note hz hm

/-- In the store after one toggle of note 0 only note 0 is expanded. -/
theorem sampleExpand_root_only (id : Int) (h : isExpanded sampleExpand id = true) : id = 0 := by
  by_contra hne
  simp [sampleExpand, toggleExpand, mapSet, isExpanded, emptyExpandState, hne] at h

/-- C19 (amended): let no note that the root reaches through Subnotes links
out of found and expanded notes reach itself through such links, and let
the expanded notes lie in a finite list `E`, as the keys of a Go map do.
Then for every recursion bound above the length of `E` the walk from note 0
is finite and `printer(0, 0)` returns, having written the lines of the
walk's notes before the first failing lookup. The notes of the walk
correspond, in order, one to one to the paths from the root: there is a
list of paths without repetition, holding exactly the paths from note 0,
whose end notes are the notes of the walk. So when every lookup of the
walk succeeds the printer writes one line per path and returns no error. -/
theorem render_terminates_on_trees (zk : ZK) (es : ExpandState) (E : List Int) (fuel : Nat)
    (hfin : ∀ id, isExpanded es id = true → id ∈ E)
    (hacyc : ∀ a, Relation.ReflTransGen (Edge zk es) 0 a →
      ¬ Relation.TransGen (Edge zk es) a a)
    (hfuel : E.length < fuel) :
    ∃ (vs : List (Int × Nat)) (ps : List (List Nat)), preorderZK zk es fuel 0 0 = some vs
      ∧ printer zk es fuel 0 0 = some (linesOf zk es (okPrefix zk vs), firstError zk vs)
      ∧ ps.Nodup
      ∧ (∀ p, p ∈ ps ↔ (followPath zk es 0 p).isSome = true)
      ∧ ps.map (followPath zk es 0) = vs.map (fun v => some v.1)
      ∧ ((∀ v ∈ vs, ∃ note, zk v.1 = Except.ok note) →
          printer zk es fuel 0 0 = some (linesOf zk es vs, none)) := by
  obtain ⟨n, rfl⟩ : ∃ n, fuel = n + 1 := ⟨fuel - 1, by omega⟩
  obtain ⟨vs, hvs⟩ := preorderZK_finite zk es E hfin hacyc n 0 0 []
    Relation.ReflTransGen.refl List.nodup_nil (fun a ha => absurd ha (List.not_mem_nil a))
    (by simp only [List.length_nil]; omega)
  obtain ⟨ps, hps, hpm⟩ := pathsFrom_visits zk es (n + 1) 0 0 vs hvs
  obtain ⟨hnd, hmem⟩ := pathsFrom_paths zk es (n + 1) 0 ps hps
  have hp := printer_abort zk es (n + 1) 0 0 vs hvs
  refine ⟨vs, ps, hvs, hp, hnd, hmem, hpm, ?_⟩
  intro hok
  have hne := firstError_of_ok zk vs hok
  rw [hp, hne, okPrefix_of_no_error zk vs hne]

/-- C19 on the sample backend with the root expanded: the walk and the
render are finite with the bound 2. -/
theorem render_terminates_on_trees_witness :
    ∃ vs, preorderZK sampleZK sampleExpand 2 0 0 = some vs
      ∧ printer sampleZK sampleExpand 2 0 0
          = some (linesOf sampleZK sampleExpand (okPrefix sampleZK vs),
              firstError sampleZK vs) := by
  obtain ⟨vs, _, h1, h2, _⟩ := render_terminates_on_trees sampleZK sampleExpand [0] 2
    (fun id h => by rw [sampleExpand_root_only id h]; exact List.mem_singleton_self 0)
    (acyclic_of_root_only sampleZK sampleExpand sampleExpand_root_only
      (fun note hz => by
        have : note = sampleNotes 0 := by
          simp only [sampleZK, Except.ok.injEq] at hz
          exact hz.symm
        rw [this]
        decide))
    (by decide)
  exact ⟨vs, h1, h2⟩

/-- C19 as stated fails: `brokenZK` with the root expanded has no cycle, and
position 1 of the root's subnotes is a path from the root to note 2; yet for
every recursion bound from 2 on the printer stops at the failing lookup of
note 1, returns its error, and has written the line of the root only, so
note 2 is not visited. -/
theorem failed_lookup_leaves_path_unvisited :
    (∀ a, Relation.ReflTransGen (Edge brokenZK sampleExpand) 0 a →
      ¬ Relation.TransGen (Edge brokenZK sampleExpand) a a)
    ∧ followPath brokenZK sampleExpand 0 [1] = some 2
    ∧ ∀ fuel, printer brokenZK sampleExpand (fuel + 2) 0 0
        = some ([45, 32, 91, 48, 93, 32, 122, 107, 10], some Err.notFound) := by
  refine ⟨?_, by decide, fun fuel => rfl⟩
  apply acyclic_of_root_only brokenZK sampleExpand sampleExpand_root_only
  intro note hz
  have : note = { Title := [122, 107], Body := [], Subnotes := [1, 2], Files := [] } := by
    simp only [brokenZK, if_true, Except.ok.injEq] at hz
    exact hz.symm
  rw [this]
  decide

/-! ## A render whose lookups succeed -/

/-- The lines of two runs of visits in a row. -/
theorem linesOf_append (zk : ZK) (es : ExpandState) (a b : List (Int × Nat)) :
    linesOf zk es (a ++ b) = linesOf zk es a ++ linesOf zk es b := by
  simp [linesOf]

/-- The lines of a walk are the reference lines of its notes. -/
theorem linesOf_eq_refLines (zk : ZK) (es : ExpandState) (vs : List (Int × Nat)) :
    linesOf zk es vs = (vs.map (refLine (noteOf zk) es)).flatten := by
  unfold linesOf
  congr 1
  apply List.map_congr_left
  intro v _
  exact renderLine_eq_refLine (noteOf zk) es v.1 v.2

/-- A render whose walk is finite and whose lookups all succeed writes the
lines of the whole walk, returns no error, and leaves them as the body. -/
theorem updateDisplay_lines (zk : ZK) (es : ExpandState) (fuel : Nat) (w : Win)
    (vs : List (Int × Nat))
    (hv : preorderZK zk es fuel 0 0 = some vs)
    (hok : ∀ v ∈ vs, ∃ note, zk v.1 = Except.ok note) :
    printer zk es fuel 0 0 = some (linesOf zk es vs, none)
    ∧ ∃ w2, updateDisplay zk es fuel w = some w2 ∧ w2.body = linesOf zk es vs := by
  have hp := printer_abort zk es fuel 0 0 vs hv
  have hne := firstError_of_ok zk vs hok
  rw [hne, okPrefix_of_no_error zk vs hne] at hp
  refine ⟨hp, ?_⟩
  simp [updateDisplay, hp, Win.Ctl, Win.Clear, Win.FprintfBody]

/-- C9: when the pre-order walk from note 0 at depth 0 through expanded
notes is finite (it fits `fuel`) and the lookup of every note of the walk
succeeds, whatever the backend answers for other ids, `printer(0, 0)`
returns no error and `updateDisplay` finishes for every recursion bound
from `fuel` on, and the body it leaves is the concatenation, in walk order,
of the reference line of each visited note: depth tabs, decoration, space,
bracketed decimal id, space, title, file-count suffix, newline. -/
theorem render_is_reference_outline (zk : ZK) (es : ExpandState) (fuel fuel2 : Nat) (w : Win)
    (vs : List (Int × Nat))
    (hv : preorderZK zk es fuel 0 0 = some vs)
    (hok : ∀ v ∈ vs, ∃ note, zk v.1 = Except.ok note)
    (hf : fuel ≤ fuel2) :
    printer zk es fuel2 0 0 = some ((vs.map (refLine (noteOf zk) es)).flatten, none)
    ∧ ∃ w2, updateDisplay zk es fuel2 w = some w2
        ∧ w2.body = (vs.map (refLine (noteOf zk) es)).flatten := by
  have h := updateDisplay_lines zk es fuel2 w vs
    (preorderZK_mono zk es fuel fuel2 hf 0 0 vs hv) hok
  rw [linesOf_eq_refLines] at h
  exact h

/-- C9 on the finite store `smallZK` with the root expanded: the walk is
notes 0, 1, 2, and note 3, which the collapsed note 2 lists, is missing. -/
theorem render_is_reference_outline_witness :
    ∃ w2, updateDisplay smallZK sampleExpand 5 Win.new = some w2
      ∧ w2.body
        = ([((0 : Int), 0), (1, 1), (2, 1)].map (refLine (noteOf smallZK) sampleExpand)).flatten :=
  (render_is_reference_outline smallZK sampleExpand 2 5 Win.new [(0, 0), (1, 1), (2, 1)]
    (by decide)
    (by
      intro v hv
      simp only [List.mem_cons, List.mem_singleton, List.not_mem_nil, or_false] at hv
      rcases hv with h | h | h <;> subst h <;> exact ⟨_, rfl⟩)
    (by decide)).2

/-! ## Resolving a click on a rendered line -/

/-- A text before the first newline of which `k` bytes are taken holds no
newline among them. -/
theorem not_mem_take_newlineIndex : ∀ (l : Bytes) (k : Nat), k ≤ newlineIndex l →
    10 ∉ l.take k := by
  intro l
  induction l with
  | nil => intro k _; simp
  | cons c t ih =>
    intro k hk
    cases k with
    | zero => simp
    | succ j =>
      by_cases hc : c = 10
      · simp [newlineIndex, List.takeWhile, hc] at hk
      · have hj : j ≤ newlineIndex t := by
          simp only [newlineIndex, List.takeWhile_cons, bne_iff_ne, ne_eq, hc, not_false_eq_true,
            decide_True, if_true, List.length_cons] at hk
          simp only [newlineIndex, bne_iff_ne, ne_eq]
          omega
        simp only [List.take_succ_cons, List.mem_cons, not_or]
        exact ⟨fun h => hc h.symm, ih j hj⟩

/-- The first newline of a text that starts with a newline-free run and a
newline is at the end of the run. -/
theorem newlineIndex_append (l r : Bytes) (h : 10 ∉ l) : newlineIndex (l ++ 10 :: r) = l.length := by
  induction l with
  | nil => simp [newlineIndex]
  | cons c t ih =>
    have hc : c ≠ 10 := fun e => h (by simp [e])
    have ht : 10 ∉ t := fun e => h (List.mem_cons_of_mem _ e)
    have := ih ht
    simp only [newlineIndex, bne_iff_ne, ne_eq] at this
    simp [newlineIndex, hc, this]

/-- The first line of a text that starts with a newline-free run. -/
theorem takeLine_prefix (l r : Bytes) (h : 10 ∉ l) : takeLine (l ++ r) = l ++ takeLine r := by
  induction l with
  | nil => simp
  | cons c t ih =>
    have hc : c ≠ 10 := fun e => h (by simp [e])
    have ht : 10 ∉ t := fun e => h (List.mem_cons_of_mem _ e)
    simp [takeLine, hc, ih ht]

/-- Addressing a line beyond the first skips a leading byte that is no newline. -/
theorem addrLine_cons_of_ne (c : Nat) (x : Bytes) (m : Nat) (hc : c ≠ 10) :
    addrLine (c :: x) (m + 2) = addrLine x (m + 2) := by
  simp [addrLine, dropLine, hc]

/-- After a text that is empty or ends in a newline, the line whose number
is one more than the newlines of that text is the first line of what follows. -/
theorem addrLine_after : ∀ pre : Bytes, (pre = [] ∨ ∃ p, pre = p ++ [10]) →
    ∀ rest, addrLine (pre ++ rest) (List.count 10 pre + 1) = Except.ok (takeLine rest) := by
  intro pre
  induction pre with
  | nil => intro _ rest; simp [addrLine]
  | cons c t ih =>
    intro hend rest
    have hp : ∃ p, c :: t = p ++ [10] := by
      rcases hend with h | h
      · cases h
      · exact h
    obtain ⟨p, hp⟩ := hp
    have ht : t = [] ∨ ∃ p2, t = p2 ++ [10] := by
      cases p with
      | nil =>
        simp only [List.nil_append, List.cons.injEq] at hp
        exact Or.inl hp.2
      | cons x p2 =>
        simp only [List.cons_append, List.cons.injEq] at hp
        exact Or.inr ⟨p2, hp.2⟩
    by_cases hc : c = 10
    · subst hc
      have hcount : List.count 10 (10 :: t) + 1 = List.count 10 t + 1 + 1 := by
        simp [List.count_cons]
      rw [hcount]
      simp only [List.cons_append, addrLine, dropLine, if_true]
      exact ih ht rest
    · have hne : t ≠ [] := by
        intro h
        subst h
        cases p with
        | nil => simp at hp; exact hc hp
        | cons x p2 => simp at hp
      obtain ⟨p2, hp2⟩ : ∃ p2, t = p2 ++ [10] := by
        rcases ht with h | h
        · exact absurd h hne
        · exact h
      have hpos : 1 ≤ List.count 10 t := by
        rw [hp2, List.count_append]
        simp
      obtain ⟨m, hm⟩ : ∃ m, List.count 10 t = m + 1 := ⟨List.count 10 t - 1, by omega⟩
      have hcount : List.count 10 (c :: t) = List.count 10 t := by
        simp [List.count_cons, hc]
      rw [hcount, List.cons_append]
      have := ih ht rest
      rw [hm] at this ⊢
      rw [addrLine_cons_of_ne c _ m hc]
      exact this

/-- The lines of a run of visits are empty or end in a newline. -/
theorem linesOf_ends (zk : ZK) (es : ExpandState) : ∀ vs : List (Int × Nat),
    linesOf zk es vs = [] ∨ ∃ p, linesOf zk es vs = p ++ [10] := by
  intro vs
  induction vs with
  | nil => left; rfl
  | cons v rest ih =>
    right
    have hcons : linesOf zk es (v :: rest)
        = renderLine es v.1 v.2 (noteOf zk v.1) ++ linesOf zk es rest := by
      simp [linesOf]
    rw [hcons]
    rcases ih with h | ⟨p, h⟩
    · rw [h, renderLine_eq_lineText]
      exact ⟨lineText es v.1 v.2 (noteOf zk v.1), by simp⟩
    · rw [h]
      exact ⟨renderLine es v.1 v.2 (noteOf zk v.1) ++ p, by simp⟩

/-- The newlines before an offset that lies between the end of a text and
the first newline of what follows are those of the text. -/
theorem count_newline_before (pre rest : Bytes) (q : Nat) (h0 : pre.length ≤ q)
    (h1 : 10 ∉ rest.take (q - pre.length)) :
    List.count 10 ((pre ++ rest).take q) = List.count 10 pre := by
  rw [List.take_append_eq_append_take, List.take_of_length_le h0, List.count_append,
    List.count_eq_zero_of_not_mem h1]
  rfl

/-- An offset is a character boundary when every byte before it is a
single-byte character. -/
theorem runeOffsets_of_ascii_before (fuel : Nat) : ∀ (buf : Bytes) (off q : Nat),
    buf.length ≤ fuel → (∀ c ∈ buf.take (q - off), c < 128) → off ≤ q →
    q ≤ off + buf.length → q ∈ runeOffsets fuel buf off := by
  induction fuel with
  | zero =>
    intro buf off q hl _ h0 h1
    have : buf.length = 0 := by omega
    simp [runeOffsets]
    omega
  | succ f ih =>
    intro buf off q hl hc h0 h1
    cases buf with
    | nil =>
      simp [runeOffsets] at h1 ⊢
      omega
    | cons p0 t =>
      by_cases hq : q = off
      · simp [runeOffsets, hq]
      · obtain ⟨j, hj⟩ : ∃ j, q - off = j + 1 := ⟨q - off - 1, by omega⟩
        rw [hj] at hc
        have hp : p0 < 128 := hc p0 (by simp)
        have hd : DecodeRune (p0 :: t) = (p0, 1) := by simp [DecodeRune, hp]
        simp only [runeOffsets, hd, List.drop_succ_cons, List.drop_zero, List.mem_cons]
        right
        apply ih
        · simpa using hl
        · intro c hcm
          apply hc c
          have : q - (off + 1) = j := by omega
          rw [this] at hcm
          simp [hcm]
        · omega
        · simp only [List.length_cons] at h1
          omega

/-- In the first line of the text that starts with the line written for a
non-negative id, the pattern finds the decimal text of that id, whatever
the title holds. -/
theorem findSubmatch_first_line (es : ExpandState) (id : Int) (depth : Nat) (note : Note)
    (post : Bytes) (hid : 0 ≤ id) :
    findSubmatch (takeLine (renderLine es id depth note ++ post))
      = some (refDecimal id.toNat) := by
  have hneg : ¬ id < 0 := by omega
  have hdec10 : decoration es id note ≠ 10 := by
    unfold decoration
    split_ifs <;> decide
  have hdec91 : decoration es id note ≠ 91 := by
    unfold decoration
    split_ifs <;> decide
  have hdig : 10 ∉ refDecimal id.toNat := fun h =>
    ne_newline_of_isDigit 10 ((refDecimal_digits _).2 10 h) rfl
  have hshape : renderLine es id depth note ++ post
      = (indent depth ++ [decoration es id note, 32] ++ 91 :: (refDecimal id.toNat ++ [93]))
        ++ (32 :: (note.Title ++ fileCount note ++ [10] ++ post)) := by
    simp [renderLine, fmtInt, hneg, fmtNat_eq_refDecimal]
  have hfree : 10 ∉ indent depth ++ [decoration es id note, 32]
      ++ 91 :: (refDecimal id.toNat ++ [93]) := by
    simp [indent, hdig, Ne.symm hdec10]
  rw [hshape, takeLine_prefix _ _ hfree]
  have hre : (indent depth ++ [decoration es id note, 32] ++ 91 :: (refDecimal id.toNat ++ [93]))
        ++ takeLine (32 :: (note.Title ++ fileCount note ++ [10] ++ post))
      = (indent depth ++ [decoration es id note, 32])
        ++ 91 :: (refDecimal id.toNat
          ++ 93 :: takeLine (32 :: (note.Title ++ fileCount note ++ [10] ++ post))) := by
    simp
  rw [hre]
  apply findSubmatch_bracket _ _ (refDecimal_digits _).1 (refDecimal_digits _).2
  simp [indent, Ne.symm hdec91]

/-- C1 (amended): after a render whose lookups all succeed, take the `k`-th
note of the walk, with a non-negative id that fits a Go `int`, and an
offset `q` from the first byte of the text written for it up to and
including the first newline of that text, such that every byte of the body
before `q` is a single-byte character. Then `getIdForEvent` on the rendered
body with `Q0 = q` returns that id with no error. When the title of the
note holds no newline, the first newline of the text written for it is its
last byte, so `q` ranges over the whole line. -/
theorem resolve_render_roundtrip (zk : ZK) (es : ExpandState) (fuel : Nat) (w w2 : Win)
    (vs : List (Int × Nat)) (k q : Nat)
    (hv : preorderZK zk es fuel 0 0 = some vs)
    (hok : ∀ v ∈ vs, ∃ note, zk v.1 = Except.ok note)
    (hw : updateDisplay zk es fuel w = some w2)
    (hk : k < vs.length)
    (hid : 0 ≤ (vs.get ⟨k, hk⟩).1 ∧ (vs.get ⟨k, hk⟩).1 < 2 ^ 63)
    (hq0 : (linesOf zk es (vs.take k)).length ≤ q)
    (hq1 : q ≤ (linesOf zk es (vs.take k)).length
      + newlineIndex (renderLine es (vs.get ⟨k, hk⟩).1 (vs.get ⟨k, hk⟩).2
          (noteOf zk (vs.get ⟨k, hk⟩).1)))
    (hascii : ∀ c ∈ w2.body.take q, c < 128) :
    getIdForEvent w2.body (q : Int) = some (Except.ok (vs.get ⟨k, hk⟩).1)
    ∧ (10 ∉ (noteOf zk (vs.get ⟨k, hk⟩).1).Title →
        newlineIndex (renderLine es (vs.get ⟨k, hk⟩).1 (vs.get ⟨k, hk⟩).2
            (noteOf zk (vs.get ⟨k, hk⟩).1)) + 1
          = (renderLine es (vs.get ⟨k, hk⟩).1 (vs.get ⟨k, hk⟩).2
            (noteOf zk (vs.get ⟨k, hk⟩).1)).length) := by
  constructor
  · obtain ⟨_, w3, hw3, hbody⟩ := updateDisplay_lines zk es fuel w vs hv hok
    rw [hw] at hw3
    cases hw3
    generalize hline : renderLine es (vs.get ⟨k, hk⟩).1 (vs.get ⟨k, hk⟩).2
      (noteOf zk (vs.get ⟨k, hk⟩).1) = line at hq1
    generalize hpre : linesOf zk es (vs.take k) = pre at hq0 hq1
    have hdrop : vs.drop k = vs.get ⟨k, hk⟩ :: vs.drop (k + 1) := List.drop_eq_getElem_cons hk
    have hvs : vs = vs.take k ++ ([vs.get ⟨k, hk⟩] ++ vs.drop (k + 1)) := by
      rw [List.singleton_append, ← hdrop, List.take_append_drop]
    have hshape : w2.body = pre ++ (line ++ linesOf zk es (vs.drop (k + 1))) := by
      rw [hbody]
      conv_lhs => rw [hvs]
      rw [linesOf_append, linesOf_append, hpre, ← hline]
      simp [linesOf]
    have hend : pre = [] ∨ ∃ p, pre = p ++ [10] := by
      rw [← hpre]
      exact linesOf_ends zk es _
    have hidx : newlineIndex line ≤ line.length := by
      unfold newlineIndex
      exact (List.takeWhile_sublist _).length_le
    have hfree : 10 ∉ (line ++ linesOf zk es (vs.drop (k + 1))).take (q - pre.length) := by
      rw [List.take_append_of_le_length (by omega)]
      exact not_mem_take_newlineIndex line _ (by omega)
    rw [hshape] at hascii ⊢
    have hlen : q ≤ 0 + (pre ++ (line ++ linesOf zk es (vs.drop (k + 1)))).length := by
      simp only [List.length_append]
      omega
    have hb := runeOffsets_of_ascii_before _ _ 0 q (Nat.le_refl _) hascii (Nat.zero_le _) hlen
    have hscan := scanLoop_boundary q
      ((pre ++ (line ++ linesOf zk es (vs.drop (k + 1)))).length + 1) _ _ 0 1
      (Nat.lt_succ_self _) hb
    simp only [Nat.cast_zero, Nat.sub_zero] at hscan
    rw [count_newline_before pre _ q hq0 hfree] at hscan
    have hatoi : Atoi (refDecimal (vs.get ⟨k, hk⟩).1.toNat)
        = Except.ok (vs.get ⟨k, hk⟩).1 := by
      have hlt : (vs.get ⟨k, hk⟩).1.toNat < 2 ^ 63 := by
        have := hid.2
        omega
      rw [Atoi_refDecimal _ hlt, Int.toNat_of_nonneg hid.1]
    unfold getIdForEvent
    rw [hscan]
    simp only []
    rw [Nat.add_comm 1 (List.count 10 pre), addrLine_after pre hend, ← hline]
    simp only [findSubmatch_first_line es _ _ _ _ hid.1, hatoi]
  · intro ht
    rw [renderLine_eq_lineText,
      show lineText es (vs.get ⟨k, hk⟩).1 (vs.get ⟨k, hk⟩).2 (noteOf zk (vs.get ⟨k, hk⟩).1)
          ++ [10]
        = lineText es (vs.get ⟨k, hk⟩).1 (vs.get ⟨k, hk⟩).2 (noteOf zk (vs.get ⟨k, hk⟩).1)
          ++ 10 :: [] from rfl,
      newlineIndex_append _ _ (lineText_no_newline es _ _ _ ht)]
    simp

/-- C1 on the render of the finite store `smallZK` with the root expanded:
offset 12 lies on the second line, written for note 1, and resolves to 1. -/
theorem resolve_render_roundtrip_witness :
    getIdForEvent sampleWin.body 12 = some (Except.ok 1) :=
  (resolve_render_roundtrip smallZK sampleExpand 2 Win.new sampleWin
    [(0, 0), (1, 1), (2, 1)] 1 12 (by decide)
    (by
      intro v hv
      simp only [List.mem_cons, List.mem_singleton, List.not_mem_nil, or_false] at hv
      rcases hv with h | h | h <;> subst h <;> exact ⟨_, rfl⟩)
    (by decide) (by decide) (by decide) (by decide) (by decide) (by decide)).1

/-- A line below a title that holds a newline still resolves: in the render
of a root titled `a`, newline, `b` with the child 1, the offsets 10 to 18 of
the child's line give 1. -/
theorem line_below_newline_title_resolves :
    (updateDisplay
        (fun id => if id = 0 then
            Except.ok { Title := [97, 10, 98], Body := [], Subnotes := [1], Files := [] }
          else Except.ok { Title := [120], Body := [], Subnotes := [], Files := [] })
        sampleExpand 2 Win.new).map Win.body
      = some [45, 32, 91, 48, 93, 32, 97, 10, 98, 10, 9, 32, 32, 91, 49, 93, 32, 120, 10]
    ∧ ∀ q ∈ [10, 11, 12, 13, 14, 15, 16, 17, 18],
        getIdForEvent
          [45, 32, 91, 48, 93, 32, 97, 10, 98, 10, 9, 32, 32, 91, 49, 93, 32, 120, 10]
          (Int.ofNat q) = some (Except.ok 1) := by
  decide

/-! ## The scan loop against character addresses -/

/-- Where every byte before the offset is a single-byte character, so that
byte offsets and character addresses agree, the scan loop ends without
error on line 1 plus the number of newlines before the offset. -/
theorem scanLoop_single_byte (t : Bytes) (q : Nat) (hq : q ≤ t.length)
    (hascii : ∀ c ∈ t.take q, c < 128) :
    scanLoop (q : Int) (t.length + 1) t 0 1
      = some (Except.ok (1 + List.count 10 (t.take q))) := by
  have hb := runeOffsets_of_ascii_before t.length t 0 q (Nat.le_refl _) hascii (Nat.zero_le _)
    (by omega)
  have h := scanLoop_boundary q (t.length + 1) t.length t 0 1 (Nat.lt_succ_self _) hb
  simpa using h

/-- C16: the scan loop on a body that holds a two-byte character. In the
body of that one character, the offset 1 lies between 0 and the length, yet
the loop steps from 0 to 2, reads past the end and returns the end-of-file
error, which `getIdForEvent` returns. In the two-line outline of note 0
(whose title is that character) and note 1, the character address 8 is the
first character of the line of note 1, but the loop, adding byte widths,
stops at the newline of the first line and the click resolves to note 0. -/
theorem scan_inside_character_fails :
    ((0 : Int) ≤ 1 ∧ (1 : Int) ≤ ([195, 169] : Bytes).length)
    ∧ scanLoop 1 (([195, 169] : Bytes).length + 1) [195, 169] 0 1
        = some (Except.error Err.eof)
    ∧ getIdForEvent [195, 169] 1 = some (Except.error Err.eof)
    ∧ scanLoop 8 19 [45, 32, 91, 48, 93, 32, 195, 169, 10, 9, 32, 32, 91, 49, 93, 32, 120, 10]
        0 1 = some (Except.ok 1)
    ∧ getIdForEvent [45, 32, 91, 48, 93, 32, 195, 169, 10, 9, 32, 32, 91, 49, 93, 32, 120, 10] 8
        = some (Except.ok 0) := by
  decide

end AcmeZk
